import Mathlib

/-!
# hybridfs: the metadata handlers of `src/src/hfs.cpp`

A shallow embedding of the FUSE handlers of hybridfs (`hfs_getattr`,
`hfs_readdir`, `hfs_create`, `hfs_mkdir`, `hfs_init`, `hfs_utimens`,
`hfs_open`, `hfs_unlink`, `hfs_rmdir`) over a model of the ordered key-value
engine they talk to.

* Byte strings (`rocksdb::Slice`, `std::string`, `const char*`) are lists of
  byte values.  A path is a NUL-free byte list, so `strlen` is its length and
  `strcmp(a, b) == 0` is equality.
* The engine is a list of key/value pairs kept in ascending
  `Slice::compare` order; every status the engine can report is an input of
  the handler (`Engine`).
* The headers `hfs_inode.h`, `hfs_utils.h`, `hfs_state.h` and `hash.h` are
  not part of the sources at hand.  The functions, constants and layouts they
  declare are the fields of `Helpers`; theorems quantify over them.
-/

namespace HFS

/-! ## Bytes and the ordered engine -/

/-- A byte string: the contents of a `Slice`, a `std::string` or a C string. -/
abbrev Bytes := List Nat

/-- The bytes of a string literal. -/
def str (s : String) : Bytes := s.toList.map Char.toNat

/-- The test `a.compare(b) < 0` of two slices: bytewise comparison, a proper
prefix is smaller. -/
def sliceLt : Bytes → Bytes → Bool
  | [], [] => false
  | [], _ :: _ => true
  | _ :: _, [] => false
  | a :: as, b :: bs =>
    if a < b then true else if b < a then false else sliceLt as bs

/-- The contents of the metadata database, in iterator order. -/
abbrev DB := List (Bytes × Bytes)

/-- Point read `db->Get(key)` on a healthy engine. -/
def dbGet : DB → Bytes → Option Bytes
  | [], _ => none
  | (k, v) :: rest, key => if k = key then some v else dbGet rest key

/-- Point write `db->Put(key, value)` on a healthy engine: create or replace,
keeping the iterator order. -/
def dbPut (key value : Bytes) : DB → DB
  | [] => [(key, value)]
  | (k, v) :: rest =>
    if sliceLt key k then (key, value) :: (k, v) :: rest
    else if k = key then (key, value) :: rest
    else (k, v) :: dbPut key value rest

/-- Point delete `db->Delete(key)` on a healthy engine. -/
def dbDelete (key : Bytes) : DB → DB
  | [] => []
  | (k, v) :: rest => if k = key then dbDelete key rest else (k, v) :: dbDelete key rest

/-- Positioning `it->Seek(start)`: the entries from the first key that is not
below `start` onwards. -/
def dbSeek (start : Bytes) : DB → DB
  | [] => []
  | (k, v) :: rest => if sliceLt k start then dbSeek start rest else (k, v) :: rest

/-- The statuses the backing engine reports during one handler call. -/
structure Engine where
  /-- status of the handler's own `db->Put` -/
  putOk : Bool
  /-- status of the handler's own `db->Delete` -/
  deleteOk : Bool
  /-- status of the write inside `updateMetaData` -/
  updateOk : Bool
  /-- status of `db->Get` on a key -/
  getOk : Bytes → Bool
  /-- value of `it->status().ok()` once the scan is over -/
  iterOk : Bool
  /-- the bytes that lie behind the buffer a point read filled -/
  heap : Bytes

/-- A write that the engine may refuse: the new contents and `status.ok()`. -/
def dbPutStatus (ok : Bool) (db : DB) (key value : Bytes) : DB × Bool :=
  if ok then (dbPut key value db, true) else (db, false)

/-- A delete that the engine may refuse. -/
def dbDeleteStatus (ok : Bool) (db : DB) (key : Bytes) : DB × Bool :=
  if ok then (dbDelete key db, true) else (db, false)

/-! ## Keys, attributes, process state -/

/-- The `struct HFSInodeKey`: the parent directory's inode number and the
hashed name. -/
structure HFSInodeKey where
  inode_number : Nat
  inode_number_hashed : Nat
deriving DecidableEq, Repr

/-- The fields of `struct stat` the handlers touch. -/
structure Stat where
  st_ino : Nat
  st_mode : Nat
  st_nlink : Nat
  st_uid : Nat
  st_gid : Nat
  st_size : Nat
  st_atim : Nat
  st_mtim : Nat
  st_ctim : Nat
deriving DecidableEq, Repr

/-- The result of `memset(&statbuf, 0, sizeof(struct stat))`. -/
def zeroStat : Stat := ⟨0, 0, 0, 0, 0, 0, 0, 0, 0⟩

/-- The `struct HFSFileMetaData`: the attribute block of a stored value. -/
structure HFSFileMetaData where
  file_structure : Stat
deriving DecidableEq, Repr

/-- The errno value `ENOENT`. -/
def ENOENT : Int := 2

/-- The errno value `ENOMEM`. -/
def ENOMEM : Int := 12

/-- The errno value `EEXIST`. -/
def EEXIST : Int := 17

/-- The errno value of a generic I/O failure. -/
def EIO : Int := 5

/-- The directory bit of `st_mode`. -/
def S_IFDIR : Nat := 16384

/-- The number of values of a `uint64_t`. -/
def U64 : Nat := 2 ^ 64

/-- Modelled from the spec: `HFS_FileSystemState` of the absent
`hfs_state.h`, the process state that owns the database handle, the
filesystem-wide 64-bit inode counter and the root-initialization flag. -/
structure HFS_FileSystemState where
  metaDataDB : DB
  inodeNumber : Nat
  rootInitFlag : Bool
deriving DecidableEq, Repr

/-- Modelled from the spec: `HFS_FileSystemState::getNextInodeNumber`, the
current value of the inode counter. -/
def getNextInodeNumber (s : HFS_FileSystemState) : Nat := s.inodeNumber

/-- Modelled from the spec: `HFS_FileSystemState::incrementInodeNumber`,
the 64-bit counter advanced by one. -/
def incrementInodeNumber (s : HFS_FileSystemState) : HFS_FileSystemState :=
  { s with inodeNumber := (s.inodeNumber + 1) % U64 }

/-- Modelled from the spec: `HFS_FileSystemState::getRootInitFlag`, the
root-initialization flag. -/
def getRootInitFlag (s : HFS_FileSystemState) : Bool := s.rootInitFlag

/-- What `hfs_inode.h`, `hfs_utils.h` and `hash.h` declare and `hfs.cpp`
uses.  Functions that consult the database take its contents. -/
structure Helpers where
  /-- constant `hfs::ROOT_INODE`, the path of the root directory -/
  ROOT_INODE : Bytes
  /-- constant `hfs::ROOT_INODE_ID` -/
  ROOT_INODE_ID : Nat
  /-- macro `HFS_INODE_VALUE_SIZE`, the size of the attribute block -/
  HFS_INODE_VALUE_SIZE : Nat
  /-- hash `murmur64(key, len, seed)` as a function of the `len` bytes it reads
  and of the seed -/
  murmur64 : Bytes → Nat → Nat
  /-- function `hfs::path::returnParentDir` -/
  returnParentDir : Bytes → Bytes
  /-- function `hfs::path::returnFilenameFromPath` -/
  returnFilenameFromPath : Bytes → Bytes
  /-- function `hfs::inode::getKeyfromPath` -/
  getKeyfromPath : DB → Bytes → HFSInodeKey
  /-- function `hfs::inode::getParentInodeNumber` -/
  getParentInodeNumber : DB → Bytes → Nat
  /-- function `hfs::inode::getInodeFromPath(path, db, name)` -/
  getInodeFromPath : DB → Bytes → Bytes → Nat
  /-- function `hfs::inode::setInodeKey(path, len, key, parent)`, the key it fills in -/
  setInodeKey : Bytes → Nat → Nat → HFSInodeKey
  /-- function `hfs::db::getKeySlice` -/
  getKeySlice : HFSInodeKey → Bytes
  /-- function `hfs::inode::initInodeValue(statbuf, name, mode)` seen through
  `hfs::db::getValueSlice`: the bytes that are stored -/
  initInodeValue : Stat → Bytes → Nat → Bytes
  /-- the bytes of an attribute block in memory -/
  encodeMetaData : HFSFileMetaData → Bytes
  /-- the view `reinterpret_cast<HFSFileMetaData*>` on `HFS_INODE_VALUE_SIZE` bytes -/
  castMetaData : Bytes → HFSFileMetaData
  /-- function `hfs::inode::getFileStat` -/
  getFileStat : DB → HFSInodeKey → Stat
  /-- function `hfs::db::getMetaDatafromKey` -/
  getMetaDatafromKey : DB → HFSInodeKey → HFSFileMetaData

/-- Modelled from the spec: `hfs::db::keyExists` of the absent
`hfs_utils.h`, the point lookup `exists(key)` that never mutates. -/
def keyExists (H : Helpers) (key : HFSInodeKey) (db : DB) : Bool :=
  (dbGet db (H.getKeySlice key)).isSome

/-- Modelled from the spec: `hfs::db::updateMetaData(db, key, name,
metadata, statbuf)` of the absent `hfs_utils.h`: the record is re-encoded
as the attribute block carrying `statbuf` followed by the name it was
handed, and written back with a single point write. -/
def updateMetaData (H : Helpers) (ok : Bool) (db : DB) (key : HFSInodeKey)
    (name : Bytes) (metadata : HFSFileMetaData) (statbuf : Stat) : DB :=
  (dbPutStatus ok db (H.getKeySlice key)
    (H.encodeMetaData { metadata with file_structure := statbuf } ++ name)).1

/-! ## The handlers of `hfs.cpp` -/

/-- The caller identity held by `struct fuse_context`. -/
structure Context where
  uid : Nat
  gid : Nat

/-- One call of the directory filler: the name and the attribute pointer
(`NULL` is `none`). -/
structure DirEntry where
  name : Bytes
  stbuf : Option Stat
deriving DecidableEq, Repr

/-- The filler callback of the bridge: its return value, given the entries
it was handed before and the entry it is handed now. -/
abbrev Filler := List DirEntry → DirEntry → Int

/-- Reading `n` bytes at offset `off` of a memory image; bytes that the image
does not determine read as zero. -/
def readBytes (mem : Bytes) (off n : Nat) : Bytes :=
  let b := (mem.drop off).take n
  b ++ List.replicate (n - b.length) 0

/-- The C string that starts at offset `off` of a memory image. -/
def cstrAt (mem : Bytes) (off : Nat) : Bytes :=
  (mem.drop off).takeWhile (fun b => b != 0)

/-- The memory seen through `&valueData[0]`: the bytes of the string, its
terminating NUL, and what lies behind the buffer. -/
def memoryOf (valueData heap : Bytes) : Bytes := valueData ++ 0 :: heap

/-- The key `hfs_getattr` holds when it reaches its lookup (`hfs.cpp` lines
17, 44-47 and 69-72): `murmur64(path, strlen(filename), 123)` hashes the
first `strlen(filename)` bytes of `path`. -/
def getattrKey (H : Helpers) (db : DB) (path : Bytes) : HFSInodeKey :=
  if path = H.ROOT_INODE then H.getKeyfromPath db path
  else if H.returnParentDir path = str "/" then
    let filenameStr := H.returnFilenameFromPath path
    { inode_number := H.ROOT_INODE_ID,
      inode_number_hashed := H.murmur64 (path.take filenameStr.length) 123 }
  else
    let filenameStr := H.returnFilenameFromPath path
    { inode_number := H.getParentInodeNumber db path,
      inode_number_hashed := H.murmur64 (path.take filenameStr.length) 123 }

/-- Handler `hfs_getattr`: return code, `*statbuf`, new state. -/
def hfs_getattr (H : Helpers) (eng : Engine) (ctx : Context) (now : Nat)
    (path : Bytes) (s : HFS_FileSystemState) : Int × Stat × HFS_FileSystemState :=
  let db := s.metaDataDB
  let key := getattrKey H db path
  if path = H.ROOT_INODE then
    let stored := H.getFileStat db key
    let fileStat := { stored with
      st_atim := now, st_mtim := now, st_gid := ctx.gid, st_uid := ctx.uid }
    let currentMetaData := H.getMetaDatafromKey db key
    let db1 := updateMetaData H eng.updateOk db key H.ROOT_INODE currentMetaData fileStat
    (0, fileStat, { s with metaDataDB := db1 })
  else
    let filenameStr := H.returnFilenameFromPath path
    if !keyExists H key db then (-ENOENT, zeroStat, s)
    else
      let stored := H.getFileStat db key
      let fileStat := { stored with
        st_atim := now, st_mtim := now, st_gid := ctx.gid, st_uid := ctx.uid }
      let metadata := H.getMetaDatafromKey db key
      let db1 := updateMetaData H eng.updateOk db key filenameStr metadata fileStat
      (0, fileStat, { s with metaDataDB := db1 })

/-- The scan loop of `hfs_readdir` (`hfs.cpp` lines 117-146) over the entries
the iterator still has to visit; `buf` is what the filler was handed so far. -/
def readdirLoop (H : Helpers) (eng : Engine) (filler : Filler) (db : DB)
    (endKey : Bytes) : DB → List DirEntry → Int × List DirEntry
  | [], buf => (if eng.iterOk then 0 else - EIO, buf)
  | (key, _) :: rest, buf =>
    if sliceLt key endKey then
      let valueData := if eng.getOk key then (dbGet db key).getD [] else []
      let mem := memoryOf valueData eng.heap
      let inodeValue := H.castMetaData (readBytes mem 0 H.HFS_INODE_VALUE_SIZE)
      let filename := cstrAt mem H.HFS_INODE_VALUE_SIZE
      if inodeValue.file_structure.st_ino = 0 then
        readdirLoop H eng filler db endKey rest buf
      else
        let e : DirEntry := { name := filename, stbuf := some inodeValue.file_structure }
        if filler buf e < 0 then (-ENOMEM, buf ++ [e])
        else readdirLoop H eng filler db endKey rest (buf ++ [e])
    else (if eng.iterOk then 0 else - EIO, buf)

/-- Handler `hfs_readdir`: return code and the entries handed to the filler,
in order. -/
def hfs_readdir (H : Helpers) (eng : Engine) (filler : Filler) (path : Bytes)
    (s : HFS_FileSystemState) : Int × List DirEntry :=
  let db := s.metaDataDB
  let dot : DirEntry := { name := str ".", stbuf := none }
  let dotdot : DirEntry := { name := str "..", stbuf := none }
  if filler [] dot < 0 then (-ENOMEM, [dot])
  else if filler [dot] dotdot < 0 then (-ENOMEM, [dot, dotdot])
  else
    let dirName := H.returnFilenameFromPath path
    let dirInode := H.getInodeFromPath db path dirName
    let startKey : HFSInodeKey := { inode_number := dirInode, inode_number_hashed := 0 }
    let endKey : HFSInodeKey :=
      { inode_number := (dirInode + 1) % U64, inode_number_hashed := 0 }
    readdirLoop H eng filler db (H.getKeySlice endKey)
      (dbSeek (H.getKeySlice startKey) db) [dot, dotdot]

/-- Handler `hfs_create`: return code and new state. -/
def hfs_create (H : Helpers) (eng : Engine) (path : Bytes) (mode : Nat)
    (s : HFS_FileSystemState) : Int × HFS_FileSystemState :=
  let db := s.metaDataDB
  let filenameStr := H.returnFilenameFromPath path
  let parentInode := H.getParentInodeNumber db path
  let key := H.setInodeKey path filenameStr.length parentInode
  if keyExists H key db then (-EEXIST, s)
  else
    let statbuf := { zeroStat with st_ino := getNextInodeNumber s, st_mode := mode }
    let s1 := incrementInodeNumber s
    let value := H.initInodeValue statbuf filenameStr mode
    let put := dbPutStatus eng.putOk db (H.getKeySlice key) value
    (0, { s1 with metaDataDB := put.1 })

/-- Handler `hfs_mkdir`: return code and new state. -/
def hfs_mkdir (H : Helpers) (eng : Engine) (path : Bytes) (mode : Nat)
    (s : HFS_FileSystemState) : Int × HFS_FileSystemState :=
  let db := s.metaDataDB
  let parentDirStr := H.returnParentDir path
  let dirnameStr := H.returnFilenameFromPath path
  let parentDirInode := H.getParentInodeNumber db path
  let key := H.setInodeKey path dirnameStr.length parentDirInode
  if keyExists H key db then (-EEXIST, s)
  else
    let statbuf := { zeroStat with
      st_ino := getNextInodeNumber s, st_mode := mode ||| S_IFDIR }
    let s1 := incrementInodeNumber s
    let value := H.initInodeValue statbuf dirnameStr (mode ||| S_IFDIR)
    let put := dbPutStatus eng.putOk db (H.getKeySlice key) value
    if !put.2 then (- EIO, { s1 with metaDataDB := put.1 })
    else
      let db1 := put.1
      let parentDirKey := H.getKeyfromPath db1 parentDirStr
      let parentMetaData := H.getMetaDatafromKey db1 parentDirKey
      let parentStat := { parentMetaData.file_structure with
        st_nlink := (parentMetaData.file_structure.st_nlink + 1) % U64 }
      let parentNew : HFSFileMetaData := { parentMetaData with file_structure := parentStat }
      let db2 := updateMetaData H eng.updateOk db1 parentDirKey parentDirStr parentNew parentStat
      (0, { s1 with metaDataDB := db2 })

/-- Handler `hfs_init`; `rootStat` is what `lstat` reports for the root path.
The returned pointer is the state itself. -/
def hfs_init (H : Helpers) (eng : Engine) (rootStat : Stat)
    (s : HFS_FileSystemState) : HFS_FileSystemState :=
  if !getRootInitFlag s then
    let key := H.setInodeKey H.ROOT_INODE 0 H.ROOT_INODE_ID
    let statbuf := { rootStat with st_ino := H.ROOT_INODE_ID }
    let s1 := incrementInodeNumber s
    let value := H.initInodeValue statbuf H.ROOT_INODE (S_IFDIR ||| 493)
    let put := dbPutStatus eng.putOk s.metaDataDB (H.getKeySlice key) value
    { s1 with metaDataDB := put.1 }
  else s

/-- Handler `hfs_utimens`: return code and new state. -/
def hfs_utimens (H : Helpers) (eng : Engine) (path : Bytes) (tv0 tv1 : Nat)
    (s : HFS_FileSystemState) : Int × HFS_FileSystemState :=
  let db := s.metaDataDB
  let key := H.getKeyfromPath db path
  if !keyExists H key db then (-ENOENT, s)
  else
    let metadata := H.getMetaDatafromKey db key
    let st := { metadata.file_structure with st_atim := tv0, st_mtim := tv1 }
    let metaNew : HFSFileMetaData := { metadata with file_structure := st }
    let db1 := updateMetaData H eng.updateOk db key (H.returnFilenameFromPath path) metaNew st
    (0, { s with metaDataDB := db1 })

/-- Handler `hfs_open`: return code. -/
def hfs_open (H : Helpers) (path : Bytes) (s : HFS_FileSystemState) : Int :=
  let db := s.metaDataDB
  let key := H.getKeyfromPath db path
  if !keyExists H key db then -ENOENT else 0

/-- Handler `hfs_unlink`: return code and new state. -/
def hfs_unlink (H : Helpers) (eng : Engine) (path : Bytes)
    (s : HFS_FileSystemState) : Int × HFS_FileSystemState :=
  let db := s.metaDataDB
  let key := H.getKeyfromPath db path
  if !keyExists H key db then (-ENOENT, s)
  else
    let del := dbDeleteStatus eng.deleteOk db (H.getKeySlice key)
    if !del.2 then (- EIO, { s with metaDataDB := del.1 })
    else (0, { s with metaDataDB := del.1 })

/-- Handler `hfs_rmdir`: return code and new state. -/
def hfs_rmdir (H : Helpers) (eng : Engine) (path : Bytes)
    (s : HFS_FileSystemState) : Int × HFS_FileSystemState :=
  let db := s.metaDataDB
  let key := H.getKeyfromPath db path
  if !keyExists H key db then (-ENOENT, s)
  else
    let del := dbDeleteStatus eng.deleteOk db (H.getKeySlice key)
    if !del.2 then (- EIO, { s with metaDataDB := del.1 })
    else
      let db1 := del.1
      let parentDirStr := H.returnParentDir path
      let parentDirKey := H.getKeyfromPath db1 parentDirStr
      let parentMetaData := H.getMetaDatafromKey db1 parentDirKey
      let parentStat := { parentMetaData.file_structure with
        st_nlink := (parentMetaData.file_structure.st_nlink + 1) % U64 }
      let parentNew : HFSFileMetaData := { parentMetaData with file_structure := parentStat }
      let db2 := updateMetaData H eng.updateOk db1 parentDirKey parentDirStr parentNew parentStat
      (0, { s with metaDataDB := db2 })

/-- A call of one of the handlers, with the inputs the bridge and the host
supply. -/
inductive Call where
  | getattr (ctx : Context) (now : Nat) (path : Bytes)
  | readdir (filler : Filler) (path : Bytes)
  | create (path : Bytes) (mode : Nat)
  | mkdir (path : Bytes) (mode : Nat)
  | init (rootStat : Stat)
  | utimens (path : Bytes) (tv0 tv1 : Nat)
  | open (path : Bytes)
  | unlink (path : Bytes)
  | rmdir (path : Bytes)

/-- The state after one handler call. -/
def step (H : Helpers) (eng : Engine) (c : Call) (s : HFS_FileSystemState) :
    HFS_FileSystemState :=
  match c with
  | .getattr ctx now path => (hfs_getattr H eng ctx now path s).2.2
  | .readdir _ _ => s
  | .create path mode => (hfs_create H eng path mode s).2
  | .mkdir path mode => (hfs_mkdir H eng path mode s).2
  | .init rootStat => hfs_init H eng rootStat s
  | .utimens path tv0 tv1 => (hfs_utimens H eng path tv0 tv1 s).2
  | .open _ => s
  | .unlink path => (hfs_unlink H eng path s).2
  | .rmdir path => (hfs_rmdir H eng path s).2

/-- The state after a sequence of handler calls, each with the statuses the
engine reports during it. -/
def run (H : Helpers) : List (Engine × Call) → HFS_FileSystemState → HFS_FileSystemState
  | [], s => s
  | (eng, c) :: rest, s => run H rest (step H eng c s)

/-! ## A reference instance of the absent helpers -/

/-- Big-endian bytes of `n`, `w` of them. -/
def beBytes : Nat → Nat → Bytes
  | 0, _ => []
  | w + 1, n => (n / 256 ^ w) % 256 :: beBytes w n

/-- The number a big-endian byte string denotes. -/
def beValue (b : Bytes) : Nat := b.foldl (fun acc x => acc * 256 + x) 0

/-- Modelled from the spec: `encodeKey` behind the absent
`hfs::db::getKeySlice`, the fixed-width order-preserving serialization of the
two 64-bit fields, big-endian, parent id first. -/
def refKeySlice (key : HFSInodeKey) : Bytes :=
  beBytes 8 key.inode_number ++ beBytes 8 key.inode_number_hashed

/-- Modelled from the spec: `nameHash` behind the absent `murmur64` of
`hash.h`, a deterministic 64-bit digest of the bytes read, salted with the
seed.  No bytes hash to zero, the name hash of the root entry. -/
def refHash (bytes : Bytes) (seed : Nat) : Nat :=
  bytes.foldl (fun h b => (h * 1099511628211 + b + seed) % U64) 0

/-- Modelled from the spec: the fixed-size attribute header behind the absent
layout of `HFSFileMetaData`: inode number, mode, link count, uid, gid, size
and the three timestamps, eight bytes each. -/
def refEncodeMetaData (m : HFSFileMetaData) : Bytes :=
  let s := m.file_structure
  beBytes 8 s.st_ino ++ beBytes 8 s.st_mode ++ beBytes 8 s.st_nlink ++
  beBytes 8 s.st_uid ++ beBytes 8 s.st_gid ++ beBytes 8 s.st_size ++
  beBytes 8 s.st_atim ++ beBytes 8 s.st_mtim ++ beBytes 8 s.st_ctim

/-- Modelled from the spec: the attribute header read back, field by
field. -/
def refCastMetaData (b : Bytes) : HFSFileMetaData :=
  let f := fun (i : Nat) => beValue ((b.drop (8 * i)).take 8)
  { file_structure := ⟨f 0, f 1, f 2, f 3, f 4, f 5, f 6, f 7, f 8⟩ }

/-- Modelled from the spec: `encodeRecord` behind the absent
`hfs::inode::initInodeValue`, the attribute header followed by the raw name
bytes, no separator. -/
def refInitInodeValue (statbuf : Stat) (name : Bytes) (_mode : Nat) : Bytes :=
  refEncodeMetaData { file_structure := statbuf } ++ name

/-- Modelled from the spec: the entry's own name behind the absent
`hfs::path::returnFilenameFromPath`, the final path component. -/
def refFilename (path : Bytes) : Bytes :=
  (path.reverse.takeWhile (fun b => b != 47)).reverse

/-- Modelled from the spec: the containing directory behind the absent
`hfs::path::returnParentDir`: the path up to its last separator, the root
path when nothing is left. -/
def refParentDir (path : Bytes) : Bytes :=
  let d := (path.reverse.dropWhile (fun b => b != 47)).reverse.dropLast
  if d = [] then [47] else d

/-- Modelled from the spec: `getRecord` behind the absent
`hfs::db::getMetaDatafromKey`, the attribute block of the stored value. -/
def refGetMetaData (db : DB) (key : HFSInodeKey) : HFSFileMetaData :=
  refCastMetaData (readBytes ((dbGet db (refKeySlice key)).getD []) 0 72)

/-- Modelled from the spec: the key of a path (absent
`hfs::inode::getKeyfromPath`) and the inode number of the directory a path
names, resolved component by component from the root: the root entry has
the reserved parent id and name hash 0, any other entry the inode number of
its parent and the hash the handlers give it. -/
def refResolve (db : DB) : Nat → Bytes → HFSInodeKey × Nat
  | 0, _ => (⟨0, 0⟩, 0)
  | fuel + 1, path =>
    if path = [47] then (⟨0, 0⟩, 0)
    else
      let parent := (refResolve db fuel (refParentDir path)).2
      let key : HFSInodeKey :=
        ⟨parent, refHash (path.take (refFilename path).length) 123⟩
      (key, (refGetMetaData db key).file_structure.st_ino)

/-- Modelled from the spec: a reference instance of the helpers that
`hfs_inode.h`, `hfs_utils.h` and `hash.h` declare, built from the codec of
the spec (order-preserving key, header-plus-name record, salted name hash)
and from the root entry with reserved parent id 0 and name hash 0. -/
def refHelpers : Helpers where
  ROOT_INODE := [47]
  ROOT_INODE_ID := 0
  HFS_INODE_VALUE_SIZE := 72
  murmur64 := refHash
  returnParentDir := refParentDir
  returnFilenameFromPath := refFilename
  getKeyfromPath := fun db path => (refResolve db path.length path).1
  getParentInodeNumber := fun db path =>
    (refResolve db path.length (refParentDir path)).2
  getInodeFromPath := fun db path _ => (refResolve db path.length path).2
  setInodeKey := fun path len parent => ⟨parent, refHash (path.take len) 123⟩
  getKeySlice := refKeySlice
  initInodeValue := refInitInodeValue
  encodeMetaData := refEncodeMetaData
  castMetaData := refCastMetaData
  getFileStat := fun db key => (refGetMetaData db key).file_structure
  getMetaDatafromKey := refGetMetaData

/-- A healthy engine: every operation succeeds, nothing of interest behind
the read buffer. -/
def okEngine : Engine :=
  { putOk := true, deleteOk := true, updateOk := true, getOk := fun _ => true,
    iterOk := true, heap := [] }

/-- A filler that accepts every entry. -/
def okFiller : Filler := fun _ _ => 0

/-- A fresh process state: empty database, counter at `n`, root not
initialized. -/
def freshState (n : Nat) : HFS_FileSystemState :=
  { metaDataDB := [], inodeNumber := n, rootInitFlag := false }

/-! ## Observations on states and runs -/

/-- The key under which `hfs_init` stores the root entry. -/
def rootKey (H : Helpers) : HFSInodeKey :=
  H.setInodeKey H.ROOT_INODE 0 H.ROOT_INODE_ID

/-- The key `hfs_create` and `hfs_mkdir` compute for a path (`hfs.cpp` lines
161-163 and 198-200). -/
def entryKey (H : Helpers) (db : DB) (path : Bytes) : HFSInodeKey :=
  H.setInodeKey path (H.returnFilenameFromPath path).length
    (H.getParentInodeNumber db path)

/-- The attribute block of a stored value, read the way the handlers read
it. -/
def storedMetaData (H : Helpers) (value : Bytes) : HFSFileMetaData :=
  H.castMetaData (readBytes value 0 H.HFS_INODE_VALUE_SIZE)

/-- The name of a stored value: what follows the attribute block. -/
def storedName (H : Helpers) (value : Bytes) : Bytes :=
  value.drop H.HFS_INODE_VALUE_SIZE

/-- The inode number in the record stored under a key, if there is one. -/
def storedIno (H : Helpers) (db : DB) (key : HFSInodeKey) : Option Nat :=
  (dbGet db (H.getKeySlice key)).map
    (fun v => (storedMetaData H v).file_structure.st_ino)

/-- The inode number of the entry a `create` or `mkdir` call stored: the key
of the path was absent before the call and holds a record after it. -/
def newEntryIno (H : Helpers) (c : Call) (s s2 : HFS_FileSystemState) : Option Nat :=
  match c with
  | .create path _ =>
    if keyExists H (entryKey H s.metaDataDB path) s.metaDataDB then none
    else storedIno H s2.metaDataDB (entryKey H s.metaDataDB path)
  | .mkdir path _ =>
    if keyExists H (entryKey H s.metaDataDB path) s.metaDataDB then none
    else storedIno H s2.metaDataDB (entryKey H s.metaDataDB path)
  | _ => none

/-- One creation of an entry during a run: the counter before the call, the
inode number the stored entry carries, the counter after the call. -/
structure Creation where
  pre : Nat
  ino : Nat
  post : Nat
deriving DecidableEq, Repr

/-- The creations of a run, in call order. -/
def creations (H : Helpers) : List (Engine × Call) → HFS_FileSystemState → List Creation
  | [], _ => []
  | (eng, c) :: rest, s =>
    match newEntryIno H c s (step H eng c s) with
    | some i =>
      { pre := s.inodeNumber, ino := i, post := (step H eng c s).inodeNumber } ::
        creations H rest (step H eng c s)
    | none => creations H rest (step H eng c s)

/-- Whether a call removes the record stored under the root entry's key: an
`unlink` or `rmdir` on a path whose key is that of the root entry. -/
def targetsRoot (H : Helpers) (c : Call) (s : HFS_FileSystemState) : Bool :=
  match c with
  | .unlink path =>
    H.getKeySlice (H.getKeyfromPath s.metaDataDB path) == H.getKeySlice (rootKey H)
  | .rmdir path =>
    H.getKeySlice (H.getKeyfromPath s.metaDataDB path) == H.getKeySlice (rootKey H)
  | _ => false

/-- Whether no call of a run removes the record under the root entry's key. -/
def sparesRoot (H : Helpers) : List (Engine × Call) → HFS_FileSystemState → Bool
  | [], _ => true
  | (eng, c) :: rest, s => !targetsRoot H c s && sparesRoot H rest (step H eng c s)

/-- The round-trip laws of the record codec that the inode-number claims rest
on: a written record yields its inode number back, and a read of a present
key yields the attribute block of the stored value. -/
structure CodecLaws (H : Helpers) : Prop where
  cast_init : ∀ (st : Stat) (name : Bytes) (mode : Nat), st.st_ino < U64 →
    (storedMetaData H (H.initInodeValue st name mode)).file_structure.st_ino = st.st_ino
  cast_encode : ∀ (m : HFSFileMetaData) (name : Bytes), m.file_structure.st_ino < U64 →
    (storedMetaData H (H.encodeMetaData m ++ name)).file_structure.st_ino
      = m.file_structure.st_ino
  get_stored : ∀ (db : DB) (key : HFSInodeKey) (v : Bytes),
    dbGet db (H.getKeySlice key) = some v →
    H.getMetaDatafromKey db key = storedMetaData H v

/-! ## Concrete states -/

/-- What `lstat` reports for the root: a directory with two links. -/
def demoRootStat : Stat := { zeroStat with st_mode := 16877, st_nlink := 2 }

/-- The state after `hfs_init` on a fresh process whose counter stands at 1. -/
def demoInit : HFS_FileSystemState :=
  hfs_init refHelpers okEngine demoRootStat (freshState 1)

/-- An engine whose `Put` fails. -/
def putFailEngine : Engine := { okEngine with putOk := false }

/-- The key of a directory with a one-letter name under the root (`/a`,
`/d`): it carries the hash of the first byte of the path. -/
def demoDirKey : HFSInodeKey := { inode_number := 0, inode_number_hashed := refHash (str "/") 123 }

/-- The key of an entry whose parent has the largest inode number. -/
def demoLastKey : HFSInodeKey :=
  { inode_number := 2 ^ 64 - 1, inode_number_hashed := refHash (str "/") 123 }

/-- A database in which the directory `/d` has inode number `2^64 - 1` and
holds one file `g` with inode number 5. -/
def demoWrapDB : DB :=
  dbPut (refKeySlice demoLastKey)
    (refInitInodeValue { zeroStat with st_ino := 5 } (str "g") 0)
    (dbPut (refKeySlice demoDirKey)
      (refInitInodeValue { zeroStat with st_ino := 2 ^ 64 - 1 } (str "d") 0)
      demoInit.metaDataDB)

/-- The state that holds `demoWrapDB`. -/
def demoWrap : HFS_FileSystemState := { demoInit with metaDataDB := demoWrapDB }

/-- The key of a child of the root whose stored value is three bytes long. -/
def demoShortKey : HFSInodeKey := { inode_number := 0, inode_number_hashed := 500 }

/-- A database in which the root holds the file `a` and a child whose value
is shorter than the attribute block. -/
def demoCorruptDB : DB :=
  dbPut (refKeySlice demoShortKey) [1, 2, 3]
    (hfs_create refHelpers okEngine (str "/a") 420 demoInit).2.metaDataDB

/-- The state that holds `demoCorruptDB`. -/
def demoCorrupt : HFS_FileSystemState := { demoInit with metaDataDB := demoCorruptDB }

/-- What lies behind the read buffer in `demoReadFailEngine`. -/
def demoHeap : Bytes := [0, 0, 0, 0, 0, 0, 9] ++ List.replicate 64 0 ++ [104, 105, 0]

/-- An engine whose point read of the short child fails and leaves
`demoHeap` behind the empty read buffer. -/
def demoReadFailEngine : Engine :=
  { okEngine with getOk := fun k => k != refKeySlice demoShortKey, heap := demoHeap }

/-- The entries for `.` and `..`. -/
def dotEntries : List DirEntry :=
  [{ name := str ".", stbuf := none }, { name := str "..", stbuf := none }]

/-- A run that creates, inspects and removes entries below the root. -/
def demoCalls : List (Engine × Call) :=
  [(okEngine, Call.mkdir (str "/a") 493),
   (okEngine, Call.create (str "/a/f") 420),
   (okEngine, Call.getattr { uid := 1000, gid := 1000 } 7 (str "/")),
   (okEngine, Call.create (str "/a/f") 420),
   (putFailEngine, Call.create (str "/bbb") 420),
   (okEngine, Call.mkdir (str "/cc") 493),
   (okEngine, Call.unlink (str "/a/f")),
   (okEngine, Call.rmdir (str "/a"))]

/-! ## Directory listing: records, order, emitted entries -/

/-- The database that results from storing records under typed keys, in list
order. -/
def storeOf (H : Helpers) (recs : List (HFSInodeKey × Bytes)) : DB :=
  recs.foldl (fun db r => dbPut (H.getKeySlice r.1) r.2 db) []

/-- Both fields of a key are 64-bit values. -/
def validKey (k : HFSInodeKey) : Prop :=
  k.inode_number < U64 ∧ k.inode_number_hashed < U64

/-- Validity of a key is decidable. -/
instance (k : HFSInodeKey) : Decidable (validKey k) := by
  unfold validKey
  infer_instance

/-- The numeric order of key pairs: parent id first, then name hash. -/
def keyLt (a b : HFSInodeKey) : Prop :=
  a.inode_number < b.inode_number ∨
    (a.inode_number = b.inode_number ∧ a.inode_number_hashed < b.inode_number_hashed)

/-- The byte-encoding invariant of keys: the encoding compares, as bytes, the
way the pairs compare as numbers. -/
def OrderPreserving (H : Helpers) : Prop :=
  ∀ a b : HFSInodeKey, validKey a → validKey b → keyLt a b →
    sliceLt (H.getKeySlice a) (H.getKeySlice b) = true

/-- The entry `hfs_readdir` computes for the key the iterator stands on, or
`none` when it takes the record for the root entry (`hfs.cpp` lines
118-135). -/
def loopEntry (H : Helpers) (eng : Engine) (db : DB) (key : Bytes) : Option DirEntry :=
  let valueData := if eng.getOk key then (dbGet db key).getD [] else []
  let mem := memoryOf valueData eng.heap
  let inodeValue := H.castMetaData (readBytes mem 0 H.HFS_INODE_VALUE_SIZE)
  if inodeValue.file_structure.st_ino = 0 then none
  else some { name := cstrAt mem H.HFS_INODE_VALUE_SIZE,
              stbuf := some inodeValue.file_structure }

/-- The directory entry that carries the stored name and the stored
attributes of a record. -/
def entryOf (H : Helpers) (value : Bytes) : DirEntry :=
  { name := storedName H value, stbuf := some (storedMetaData H value).file_structure }

/-- A record is a child of directory `d` that does not carry the root
sentinel. -/
def isListedChild (H : Helpers) (d : Nat) (r : HFSInodeKey × Bytes) : Bool :=
  r.1.inode_number == d && (storedMetaData H r.2).file_structure.st_ino != 0

/-- The iterator order of a database: keys strictly ascending. -/
def Sorted (db : DB) : Prop := List.Pairwise (fun e1 e2 => sliceLt e1.1 e2.1 = true) db

/-- The state after a directory `/a`, a file `/bb` and a file `/a/f` were
created below the root. -/
def demoTree : HFS_FileSystemState :=
  run refHelpers
    [(okEngine, Call.mkdir (str "/a") 493),
     (okEngine, Call.create (str "/bb") 420),
     (okEngine, Call.create (str "/a/f") 420)]
    demoInit

/-- The records of `demoTree` under their typed keys, not in key order. -/
def demoRecs : List (HFSInodeKey × Bytes) :=
  [({ inode_number := 2, inode_number_hashed := refHash (str "/") 123 },
      refInitInodeValue { zeroStat with st_ino := 4, st_mode := 420 } (str "f") 420),
   ({ inode_number := 0, inode_number_hashed := refHash (str "/b") 123 },
      refInitInodeValue { zeroStat with st_ino := 3, st_mode := 420 } (str "bb") 420),
   ({ inode_number := 0, inode_number_hashed := 0 },
      refInitInodeValue { demoRootStat with st_ino := 0, st_nlink := 3 } (str "/") 0),
   ({ inode_number := 0, inode_number_hashed := refHash (str "/") 123 },
      refInitInodeValue { zeroStat with st_ino := 2, st_mode := 16877 } (str "a") 0)]

/-- A filler that accepts `.` and `..` and reports an error from the third
entry on. -/
def fullFiller : Filler := fun buf _ => if buf.length < 2 then 0 else -1

/-- Whether the inode counter never wraps during a run: no call leaves it
below the value it found. -/
def neverWraps (H : Helpers) : List (Engine × Call) → HFS_FileSystemState → Bool
  | [], _ => true
  | (eng, c) :: rest, s =>
    decide (s.inodeNumber ≤ (step H eng c s).inodeNumber) &&
      neverWraps H rest (step H eng c s)

/-! ## Theorems -/

set_option maxRecDepth 8000

/-! ### The engine as a finite map -/

/-- A read after a write: the written key yields the new value, any other key
what it held. -/
theorem dbGet_dbPut (key value : Bytes) (db : DB) (k : Bytes) :
    dbGet (dbPut key value db) k = if k = key then some value else dbGet db k := by
  induction db with
  | nil =>
    by_cases h : k = key
    · simp [dbPut, dbGet, h]
    · have h2 : ¬ key = k := fun e => h e.symm
      simp [dbPut, dbGet, h, h2]
  | cons e rest ih =>
    obtain ⟨k1, v1⟩ := e
    by_cases h : k = key
    · subst h
      rw [if_pos rfl] at ih ⊢
      simp only [dbPut]
      split_ifs with a b
      · simp [dbGet]
      · simp [dbGet]
      · simp [dbGet, b, ih]
    · have h2 : ¬ key = k := fun e => h e.symm
      rw [if_neg h] at ih ⊢
      simp only [dbPut]
      split_ifs with a b
      · simp [dbGet, h2]
      · subst b
        simp [dbGet, h2]
      · simp [dbGet, ih]

/-- A read after a delete: the deleted key is gone, any other key holds what it
held. -/
theorem dbGet_dbDelete (key : Bytes) (db : DB) (k : Bytes) :
    dbGet (dbDelete key db) k = if k = key then none else dbGet db k := by
  induction db with
  | nil => simp [dbDelete, dbGet]
  | cons e rest ih =>
    obtain ⟨k1, v1⟩ := e
    by_cases h : k = key
    · subst h
      rw [if_pos rfl] at ih ⊢
      simp only [dbDelete]
      split_ifs with a
      · exact ih
      · simp [dbGet, a, ih]
    · have h2 : ¬ key = k := fun e => h e.symm
      rw [if_neg h] at ih ⊢
      simp only [dbDelete]
      split_ifs with a
      · subst a
        simp [dbGet, h2, ih]
      · simp [dbGet, ih]

/-- A write, accepted or refused, removes no key. -/
theorem dbGet_dbPutStatus_isSome {ok : Bool} {db : DB} {key value k : Bytes}
    (h : (dbGet db k).isSome = true) :
    (dbGet (dbPutStatus ok db key value).1 k).isSome = true := by
  cases ok
  · simpa [dbPutStatus] using h
  · simp only [dbPutStatus, if_true, dbGet_dbPut]
    split_ifs
    · rfl
    · exact h

/-- A write, accepted or refused, keeps every key that exists. -/
theorem keyExists_dbPutStatus {H : Helpers} {ok : Bool} {db : DB} {key value : Bytes}
    {k : HFSInodeKey} (h : keyExists H k db = true) :
    keyExists H k (dbPutStatus ok db key value).1 = true := by
  unfold keyExists at *
  exact dbGet_dbPutStatus_isSome h

/-- A delete of another key slice keeps a key that exists. -/
theorem keyExists_dbDelete {H : Helpers} {ok : Bool} {db : DB} {key : Bytes} {k : HFSInodeKey}
    (hne : key ≠ H.getKeySlice k) (h : keyExists H k db = true) :
    keyExists H k (dbDeleteStatus ok db key).1 = true := by
  unfold keyExists at *
  cases ok
  · simpa [dbDeleteStatus] using h
  · simp only [dbDeleteStatus, if_true, dbGet_dbDelete]
    rw [if_neg (fun e => hne e.symm)]
    exact h

/-- One handler call that does not target the root entry keeps it. -/
theorem step_keeps_root (H : Helpers) (eng : Engine) (c : Call) (s : HFS_FileSystemState)
    (hsp : targetsRoot H c s = false)
    (h : keyExists H (rootKey H) s.metaDataDB = true) :
    keyExists H (rootKey H) (step H eng c s).metaDataDB = true := by
  cases c with
  | getattr ctx now path =>
    simp only [step, hfs_getattr, updateMetaData]
    split_ifs
    · exact keyExists_dbPutStatus h
    · exact h
    · exact keyExists_dbPutStatus h
  | readdir f path => exact h
  | create path mode =>
    simp only [step, hfs_create]
    split_ifs
    · exact h
    · exact keyExists_dbPutStatus h
  | mkdir path mode =>
    simp only [step, hfs_mkdir, updateMetaData]
    split_ifs
    · exact h
    · exact keyExists_dbPutStatus h
    · exact keyExists_dbPutStatus (keyExists_dbPutStatus h)
  | init r =>
    simp only [step, hfs_init]
    split_ifs
    · exact keyExists_dbPutStatus h
    · exact h
  | utimens path a b =>
    simp only [step, hfs_utimens, updateMetaData]
    split_ifs
    · exact h
    · exact keyExists_dbPutStatus h
  | «open» path => exact h
  | unlink path =>
    have hne : H.getKeySlice (H.getKeyfromPath s.metaDataDB path) ≠ H.getKeySlice (rootKey H) := by
      simpa [targetsRoot] using hsp
    simp only [step, hfs_unlink]
    split_ifs
    · exact h
    · exact keyExists_dbDelete hne h
    · exact keyExists_dbDelete hne h
  | rmdir path =>
    have hne : H.getKeySlice (H.getKeyfromPath s.metaDataDB path) ≠ H.getKeySlice (rootKey H) := by
      simpa [targetsRoot] using hsp
    simp only [step, hfs_rmdir, updateMetaData]
    split_ifs
    · exact h
    · exact keyExists_dbDelete hne h
    · exact keyExists_dbPutStatus (keyExists_dbDelete hne h)

/-- A run that spares the root entry keeps it. -/
theorem run_keeps_root (H : Helpers) (calls : List (Engine × Call)) (s : HFS_FileSystemState)
    (hsp : sparesRoot H calls s = true)
    (h : keyExists H (rootKey H) s.metaDataDB = true) :
    keyExists H (rootKey H) (run H calls s).metaDataDB = true := by
  induction calls generalizing s with
  | nil => exact h
  | cons ec rest ih =>
    obtain ⟨eng, c⟩ := ec
    simp only [sparesRoot, Bool.and_eq_true, Bool.not_eq_true'] at hsp
    exact ih _ hsp.2 (step_keeps_root H eng c s hsp.1 h)

/-- After `hfs_init` on an unset flag with an accepted write the root entry
exists. -/
theorem hfs_init_stores_root (H : Helpers) (eng : Engine) (r : Stat) (s : HFS_FileSystemState)
    (hflag : s.rootInitFlag = false) (hput : eng.putOk = true) :
    keyExists H (rootKey H) (hfs_init H eng r s).metaDataDB = true := by
  simp [hfs_init, getRootInitFlag, hflag, hput, dbPutStatus, keyExists, dbGet_dbPut, rootKey,
    incrementInodeNumber]

/-- Claim C5, as amended: in every state reached from a successful `hfs_init`
(flag unset, root record written) by a sequence of handler calls in which no
`unlink` or `rmdir` names a path whose key is the root entry's key, the root
entry's key is still present in the store. -/
theorem root_survives_sparing_runs (H : Helpers) (eng : Engine) (r : Stat)
    (s : HFS_FileSystemState) (calls : List (Engine × Call))
    (hflag : s.rootInitFlag = false) (hput : eng.putOk = true)
    (hsp : sparesRoot H calls (hfs_init H eng r s) = true) :
    keyExists H (rootKey H) (run H calls (hfs_init H eng r s)).metaDataDB = true :=
  run_keeps_root H calls _ hsp (hfs_init_stores_root H eng r s hflag hput)

/-- Claim C5, witness: a run of `mkdir`, `create`, `getattr`, `unlink` and
`rmdir` calls below the root spares the root entry, which is present
afterwards. -/
theorem root_survives_sparing_runs_witness :
    (freshState 1).rootInitFlag = false ∧ okEngine.putOk = true ∧
    sparesRoot refHelpers demoCalls
      (hfs_init refHelpers okEngine demoRootStat (freshState 1)) = true ∧
    keyExists refHelpers (rootKey refHelpers)
      (run refHelpers demoCalls
        (hfs_init refHelpers okEngine demoRootStat (freshState 1))).metaDataDB = true :=
  ⟨rfl, rfl, by decide,
    root_survives_sparing_runs refHelpers okEngine demoRootStat (freshState 1) demoCalls
      rfl rfl (by decide)⟩



/-! ### The inode counter -/

/-- The stored inode number of a present key is that of its value. -/
theorem storedIno_of_get {H : Helpers} {db : DB} {key : HFSInodeKey} {v : Bytes}
    (h : dbGet db (H.getKeySlice key) = some v) :
    storedIno H db key = some (storedMetaData H v).file_structure.st_ino := by
  simp [storedIno, h]

/-- An absent key has no stored inode number. -/
theorem storedIno_of_absent {H : Helpers} {db : DB} {key : HFSInodeKey}
    (h : keyExists H key db = false) : storedIno H db key = none := by
  unfold keyExists at h
  cases hg : dbGet db (H.getKeySlice key) with
  | none => simp [storedIno, hg]
  | some v => simp [hg] at h

/-- An entry stored by `hfs_create` carries the counter value the call found,
and the counter is one larger afterwards. -/
theorem create_newEntry (H : Helpers) (laws : CodecLaws H) (eng : Engine) (path : Bytes)
    (mode : Nat) (s : HFS_FileSystemState) (hlt : s.inodeNumber + 1 < U64) (i : Nat)
    (h : newEntryIno H (.create path mode) s (step H eng (.create path mode) s) = some i) :
    i = s.inodeNumber ∧ (step H eng (.create path mode) s).inodeNumber = s.inodeNumber + 1 := by
  have hmod : (s.inodeNumber + 1) % U64 = s.inodeNumber + 1 := Nat.mod_eq_of_lt hlt
  have hino : s.inodeNumber < U64 := by omega
  simp only [newEntryIno] at h
  by_cases hex : keyExists H (entryKey H s.metaDataDB path) s.metaDataDB = true
  · simp [hex] at h
  · have hex2 : keyExists H (entryKey H s.metaDataDB path) s.metaDataDB = false := by
      simpa using hex
    rw [if_neg hex] at h
    have hex3 := hex2
    unfold entryKey at hex3
    cases hput : eng.putOk
    · simp only [step, hfs_create, hex3, hput, dbPutStatus, incrementInodeNumber] at h
      simp only [Bool.false_eq_true, if_false] at h
      rw [storedIno_of_absent hex2] at h
      cases h
    · simp only [step, hfs_create, hex3, hput, dbPutStatus, incrementInodeNumber] at h ⊢
      simp only [Bool.false_eq_true, if_false, if_true] at h ⊢
      refine ⟨?_, hmod⟩
      rw [storedIno_of_get (v := H.initInodeValue
        { zeroStat with st_ino := getNextInodeNumber s, st_mode := mode }
        (H.returnFilenameFromPath path) mode)] at h
      · rw [laws.cast_init _ _ _ hino] at h
        simpa [getNextInodeNumber] using h.symm
      · unfold entryKey
        rw [dbGet_dbPut, if_pos rfl]

/-- After `hfs_mkdir` with an accepted write the record under the new key
carries the counter value the call found, also when the parent update rewrites
that very key. -/
theorem mkdir_storedIno (H : Helpers) (laws : CodecLaws H) (eng : Engine) (path : Bytes)
    (mode : Nat) (s : HFS_FileSystemState) (hino : s.inodeNumber < U64)
    (hex : keyExists H (entryKey H s.metaDataDB path) s.metaDataDB = false)
    (hput : eng.putOk = true) :
    storedIno H (hfs_mkdir H eng path mode s).2.metaDataDB (entryKey H s.metaDataDB path)
      = some s.inodeNumber := by
  have hex3 := hex
  unfold entryKey at hex3
  simp only [hfs_mkdir, hex3, hput, dbPutStatus, incrementInodeNumber, updateMetaData,
    getNextInodeNumber, Bool.false_eq_true, if_false, if_true, Bool.not_true]
  generalize hv : H.initInodeValue
    { zeroStat with st_ino := s.inodeNumber, st_mode := mode ||| S_IFDIR }
    (H.returnFilenameFromPath path) (mode ||| S_IFDIR) = value
  have hvi : (storedMetaData H value).file_structure.st_ino = s.inodeNumber := by
    rw [← hv]
    exact laws.cast_init _ _ _ hino
  change storedIno H _ (entryKey H s.metaDataDB path) = _
  generalize hks : entryKey H s.metaDataDB path = key
  have hks2 : H.setInodeKey path (H.returnFilenameFromPath path).length
      (H.getParentInodeNumber s.metaDataDB path) = key := hks
  simp only [hks2]
  generalize hdb1 : dbPut (H.getKeySlice key) value s.metaDataDB = db1
  have hget1 : dbGet db1 (H.getKeySlice key) = some value := by
    rw [← hdb1, dbGet_dbPut, if_pos rfl]
  generalize H.getKeyfromPath db1 (H.returnParentDir path) = pkey
  cases hupd : eng.updateOk
  · simp only [Bool.false_eq_true, if_false]
    rw [storedIno_of_get hget1, hvi]
  · simp only [if_true]
    by_cases hk : H.getKeySlice key = H.getKeySlice pkey
    · have hgs := laws.get_stored db1 pkey value (hk ▸ hget1)
      rw [storedIno_of_get (by rw [dbGet_dbPut, if_pos hk])]
      rw [laws.cast_encode]
      · simp [hgs, hvi]
      · simp [hgs, hvi, hino]
    · rw [storedIno_of_get (by rw [dbGet_dbPut, if_neg hk]; exact hget1), hvi]

/-- An entry stored by `hfs_mkdir` carries the counter value the call found,
and the counter is one larger afterwards. -/
theorem mkdir_newEntry (H : Helpers) (laws : CodecLaws H) (eng : Engine) (path : Bytes)
    (mode : Nat) (s : HFS_FileSystemState) (hlt : s.inodeNumber + 1 < U64) (i : Nat)
    (h : newEntryIno H (.mkdir path mode) s (step H eng (.mkdir path mode) s) = some i) :
    i = s.inodeNumber ∧ (step H eng (.mkdir path mode) s).inodeNumber = s.inodeNumber + 1 := by
  have hmod : (s.inodeNumber + 1) % U64 = s.inodeNumber + 1 := Nat.mod_eq_of_lt hlt
  have hino : s.inodeNumber < U64 := by omega
  simp only [newEntryIno] at h
  by_cases hex : keyExists H (entryKey H s.metaDataDB path) s.metaDataDB = true
  · simp [hex] at h
  · have hex2 : keyExists H (entryKey H s.metaDataDB path) s.metaDataDB = false := by
      simpa using hex
    rw [if_neg hex] at h
    have hex3 := hex2
    unfold entryKey at hex3
    cases hput : eng.putOk
    · simp only [step, hfs_mkdir, hex3, hput, dbPutStatus, incrementInodeNumber] at h
      simp only [Bool.false_eq_true, if_false, Bool.not_false, if_true] at h
      rw [storedIno_of_absent hex2] at h
      cases h
    · simp only [step] at h ⊢
      rw [mkdir_storedIno H laws eng path mode s hino hex2 hput] at h
      refine ⟨(Option.some.inj h).symm, ?_⟩
      simp only [hfs_mkdir, hex3, hput, dbPutStatus, incrementInodeNumber,
        Bool.false_eq_true, if_false, if_true, Bool.not_true, hmod]

/-- Any call that stores a new entry gives it the counter value it found and
advances the counter by one. -/
theorem newEntry_spec (H : Helpers) (laws : CodecLaws H) (eng : Engine) (c : Call)
    (s : HFS_FileSystemState) (hlt : s.inodeNumber + 1 < U64) (i : Nat)
    (h : newEntryIno H c s (step H eng c s) = some i) :
    i = s.inodeNumber ∧ (step H eng c s).inodeNumber = s.inodeNumber + 1 := by
  cases c with
  | create path mode => exact create_newEntry H laws eng path mode s hlt i h
  | mkdir path mode => exact mkdir_newEntry H laws eng path mode s hlt i h
  | getattr _ _ _ => simp [newEntryIno] at h
  | readdir _ _ => simp [newEntryIno] at h
  | init _ => simp [newEntryIno] at h
  | utimens _ _ _ => simp [newEntryIno] at h
  | «open» _ => simp [newEntryIno] at h
  | unlink _ => simp [newEntryIno] at h
  | rmdir _ => simp [newEntryIno] at h

/-- A handler call leaves the counter alone or advances it by one modulo
`2^64`. -/
theorem step_counter_cases (H : Helpers) (eng : Engine) (c : Call) (s : HFS_FileSystemState) :
    (step H eng c s).inodeNumber = s.inodeNumber ∨
    (step H eng c s).inodeNumber = (s.inodeNumber + 1) % U64 := by
  cases c <;> simp only [step, hfs_getattr, hfs_create, hfs_mkdir, hfs_init, hfs_utimens,
      hfs_unlink, hfs_rmdir, incrementInodeNumber] <;> (try split_ifs) <;> simp

/-- The counter stays a 64-bit value. -/
theorem step_counter_lt (H : Helpers) (eng : Engine) (c : Call) (s : HFS_FileSystemState)
    (hs : s.inodeNumber < U64) : (step H eng c s).inodeNumber < U64 := by
  rcases step_counter_cases H eng c s with h | h
  · rw [h]
    exact hs
  · rw [h]
    exact Nat.mod_lt _ (by unfold U64; positivity)

/-- A call that stores a new entry advances the counter. -/
theorem stores_advance (H : Helpers) (eng : Engine) (c : Call) (s : HFS_FileSystemState)
    (i : Nat) (h : newEntryIno H c s (step H eng c s) = some i) :
    (step H eng c s).inodeNumber = (s.inodeNumber + 1) % U64 := by
  cases c with
  | create path mode =>
    simp only [newEntryIno] at h
    by_cases hex : keyExists H (entryKey H s.metaDataDB path) s.metaDataDB = true
    · simp [hex] at h
    · have hex2 : keyExists H (entryKey H s.metaDataDB path) s.metaDataDB = false := by
        simpa using hex
      unfold entryKey at hex2
      simp only [step, hfs_create, hex2, incrementInodeNumber, Bool.false_eq_true, if_false]
  | mkdir path mode =>
    simp only [newEntryIno] at h
    by_cases hex : keyExists H (entryKey H s.metaDataDB path) s.metaDataDB = true
    · simp [hex] at h
    · have hex2 : keyExists H (entryKey H s.metaDataDB path) s.metaDataDB = false := by
        simpa using hex
      unfold entryKey at hex2
      simp only [step, hfs_mkdir, hex2, incrementInodeNumber, Bool.false_eq_true, if_false]
      split_ifs <;> rfl
  | getattr _ _ _ => simp [newEntryIno] at h
  | readdir _ _ => simp [newEntryIno] at h
  | init _ => simp [newEntryIno] at h
  | utimens _ _ _ => simp [newEntryIno] at h
  | «open» _ => simp [newEntryIno] at h
  | unlink _ => simp [newEntryIno] at h
  | rmdir _ => simp [newEntryIno] at h

/-- The creations of a run without wrap: each carries the counter value the
call found, none lies below the counter at the start, and they ascend strictly.
-/
theorem creations_spec (H : Helpers) (laws : CodecLaws H) (calls : List (Engine × Call))
    (s : HFS_FileSystemState) (hs : s.inodeNumber < U64)
    (hw : neverWraps H calls s = true) :
    (∀ ev ∈ creations H calls s,
      ev.ino = ev.pre ∧ ev.post = ev.pre + 1 ∧ s.inodeNumber ≤ ev.ino) ∧
    List.Pairwise (fun a b => a < b) ((creations H calls s).map Creation.ino) := by
  induction calls generalizing s with
  | nil => simp [creations]
  | cons ec rest ih =>
    obtain ⟨eng, c⟩ := ec
    simp only [neverWraps, Bool.and_eq_true, decide_eq_true_eq] at hw
    have hrest := ih (step H eng c s) (step_counter_lt H eng c s hs) hw.2
    simp only [creations]
    cases hn : newEntryIno H c s (step H eng c s) with
    | none =>
      simp only []
      refine ⟨fun ev hev => ?_, hrest.2⟩
      obtain ⟨h1, h2, h3⟩ := hrest.1 ev hev
      exact ⟨h1, h2, by omega⟩
    | some i =>
      have hadv := stores_advance H eng c s i hn
      have hlt1 : s.inodeNumber + 1 < U64 := by
        by_contra hcon
        have hU : s.inodeNumber + 1 = U64 := by omega
        rw [hU, Nat.mod_self] at hadv
        have h1 := hw.1
        rw [hadv] at h1
        have : U64 = 1 := by omega
        exact absurd this (by unfold U64; norm_num)
      obtain ⟨hi, hpost⟩ := newEntry_spec H laws eng c s hlt1 i hn
      simp only [List.map_cons, List.pairwise_cons, List.mem_cons, List.mem_map]
      refine ⟨fun ev hev => ?_, ?_, hrest.2⟩
      · rcases hev with rfl | hev
        · exact ⟨hi, hpost, by simp [hi]⟩
        · obtain ⟨h1, h2, h3⟩ := hrest.1 ev hev
          exact ⟨h1, h2, by omega⟩
      · rintro j ⟨ev, hev, rfl⟩
        obtain ⟨_, _, h3⟩ := hrest.1 ev hev
        omega

/-! ### The reference codec -/

/-- Width of the big-endian encoding. -/
theorem beBytes_length (w n : Nat) : (beBytes w n).length = w := by
  induction w with
  | zero => rfl
  | succ w ih => simp [beBytes, ih]

/-- Horner evaluation with a start value. -/
theorem foldl_be (l : Bytes) (acc : Nat) :
    l.foldl (fun a x => a * 256 + x) acc = acc * 256 ^ l.length + beValue l := by
  induction l generalizing acc with
  | nil => simp [beValue]
  | cons x rest ih =>
    simp only [List.foldl_cons, List.length_cons, beValue]
    rw [ih, ih (0 * 256 + x)]
    ring

/-- The value of a big-endian string, leading byte split off. -/
theorem beValue_cons (x : Nat) (rest : Bytes) :
    beValue (x :: rest) = x * 256 ^ rest.length + beValue rest := by
  simp only [beValue, List.foldl_cons]
  rw [foldl_be]
  simp [beValue]

/-- Decoding a big-endian encoding yields the number modulo the width. -/
theorem beValue_beBytes (w n : Nat) : beValue (beBytes w n) = n % 256 ^ w := by
  induction w with
  | zero => simp [beBytes, beValue, Nat.mod_one]
  | succ w ih =>
    simp only [beBytes, beValue_cons, beBytes_length, ih]
    rw [Nat.mod_pow_succ]
    ring

/-- Reading exactly the leading block of a memory image. -/
theorem readBytes_append (b rest : Bytes) (n : Nat) (h : b.length = n) :
    readBytes (b ++ rest) 0 n = b := by
  subst h
  simp [readBytes]

/-- The reference attribute header is 72 bytes long. -/
theorem refEncodeMetaData_length (m : HFSFileMetaData) : (refEncodeMetaData m).length = 72 := by
  simp [refEncodeMetaData, beBytes_length]

/-- The reference codec returns the inode number of an encoded header. -/
theorem refEncode_ino (m : HFSFileMetaData) (name : Bytes) (h : m.file_structure.st_ino < U64) :
    (storedMetaData refHelpers (refEncodeMetaData m ++ name)).file_structure.st_ino
      = m.file_structure.st_ino := by
  have h72 : refHelpers.HFS_INODE_VALUE_SIZE = 72 := rfl
  have hc : refHelpers.castMetaData = refCastMetaData := rfl
  unfold storedMetaData
  rw [h72, hc, readBytes_append _ _ _ (refEncodeMetaData_length m)]
  simp only [refCastMetaData, refEncodeMetaData, Nat.mul_zero, List.drop_zero, List.append_assoc]
  rw [List.take_left' (beBytes_length 8 _), beValue_beBytes]
  exact Nat.mod_eq_of_lt h

/-- The reference helpers satisfy the codec laws. -/
theorem refHelpers_laws : CodecLaws refHelpers where
  cast_init := fun st name _ h => refEncode_ino { file_structure := st } name h
  cast_encode := fun m name h => refEncode_ino m name h
  get_stored := fun db key v h => by
    show refGetMetaData db key = _
    unfold refGetMetaData storedMetaData
    have h2 : dbGet db (refKeySlice key) = some v := h
    rw [h2]
    rfl

/-- Claim C7: during a run in which the 64-bit inode counter never wraps, every
`hfs_create` or `hfs_mkdir` call that stores a new entry gives it the
counter's value before the call as inode number and leaves the counter
advanced by exactly one; the inode numbers of the stored entries are strictly
increasing in call order, so none is assigned twice. -/
theorem inode_numbers_strictly_increase (H : Helpers) (laws : CodecLaws H)
    (calls : List (Engine × Call)) (s : HFS_FileSystemState)
    (hs : s.inodeNumber < U64) (hw : neverWraps H calls s = true) :
    (∀ ev ∈ creations H calls s, ev.ino = ev.pre ∧ ev.post = ev.pre + 1) ∧
    List.Pairwise (fun a b => a < b) ((creations H calls s).map Creation.ino) ∧
    ((creations H calls s).map Creation.ino).Nodup := by
  obtain ⟨h1, h2⟩ := creations_spec H laws calls s hs hw
  refine ⟨fun ev hev => ⟨(h1 ev hev).1, (h1 ev hev).2.1⟩, h2, ?_⟩
  exact h2.imp (fun hab => Nat.ne_of_lt hab)

/-- Claim C7, witness: the creations of the run `demoCalls` after
`hfs_init`. -/
theorem inode_numbers_strictly_increase_witness :
    demoInit.inodeNumber < U64 ∧ neverWraps refHelpers demoCalls demoInit = true ∧
    creations refHelpers demoCalls demoInit
      = [{ pre := 2, ino := 2, post := 3 }, { pre := 3, ino := 3, post := 4 },
         { pre := 5, ino := 5, post := 6 }] ∧
    ((∀ ev ∈ creations refHelpers demoCalls demoInit, ev.ino = ev.pre ∧ ev.post = ev.pre + 1) ∧
     List.Pairwise (fun a b => a < b) ((creations refHelpers demoCalls demoInit).map Creation.ino) ∧
     ((creations refHelpers demoCalls demoInit).map Creation.ino).Nodup) :=
  ⟨by decide, by decide, by decide,
    inode_numbers_strictly_increase refHelpers refHelpers_laws demoCalls demoInit
      (by decide) (by decide)⟩

/-! ### Slice comparison is a strict total order -/

/-- No slice is below itself. -/
theorem sliceLt_irrefl (a : Bytes) : sliceLt a a = false := by
  induction a with
  | nil => rfl
  | cons x rest ih => simp [sliceLt, ih]

/-- Slice comparison is transitive. -/
theorem sliceLt_trans {a b c : Bytes} (h1 : sliceLt a b = true) (h2 : sliceLt b c = true) :
    sliceLt a c = true := by
  induction a generalizing b c with
  | nil =>
    cases b with
    | nil => simp [sliceLt] at h1
    | cons y bs =>
      cases c with
      | nil => simp [sliceLt] at h2
      | cons z cs => simp [sliceLt]
  | cons x as ih =>
    cases b with
    | nil => simp [sliceLt] at h1
    | cons y bs =>
      cases c with
      | nil => simp [sliceLt] at h2
      | cons z cs =>
        simp only [sliceLt] at h1 h2 ⊢
        by_cases hxy : x < y
        · by_cases hyz : y < z
          · have : x < z := Nat.lt_trans hxy hyz
            simp [this]
          · by_cases hzy : z < y
            · simp [hyz, hzy] at h2
            · have : y = z := by omega
              subst this
              simp [hxy]
        · by_cases hyx : y < x
          · simp [hxy, hyx] at h1
          · have hxy2 : x = y := by omega
            subst hxy2
            simp only [lt_self_iff_false, if_false] at h1
            by_cases hxz : x < z
            · simp [hxz]
            · by_cases hzx : z < x
              · simp [hxz, hzx] at h2
              · simp only [hxz, hzx, if_false] at h2 ⊢
                exact ih h1 h2

/-- Two different slices are comparable. -/
theorem sliceLt_total {a b : Bytes} (h1 : sliceLt a b = false) (h2 : a ≠ b) :
    sliceLt b a = true := by
  induction a generalizing b with
  | nil =>
    cases b with
    | nil => exact absurd rfl h2
    | cons y bs => simp [sliceLt] at h1
  | cons x as ih =>
    cases b with
    | nil => simp [sliceLt]
    | cons y bs =>
      simp only [sliceLt] at h1 ⊢
      by_cases hxy : x < y
      · simp [hxy] at h1
      · by_cases hyx : y < x
        · simp [hyx]
        · have hxy2 : x = y := by omega
          subst hxy2
          simp only [lt_self_iff_false, if_false] at h1 ⊢
          exact ih h1 (fun e => h2 (by rw [e]))

/-- Slice comparison is asymmetric. -/
theorem sliceLt_asymm {a b : Bytes} (h1 : sliceLt a b = true) : sliceLt b a = false := by
  cases h : sliceLt b a with
  | false => rfl
  | true =>
    have := sliceLt_trans h1 h
    rw [sliceLt_irrefl] at this
    cases this

/-- Slices in strict order differ. -/
theorem sliceLt_ne {a b : Bytes} (h1 : sliceLt a b = true) : a ≠ b := by
  intro e
  subst e
  rw [sliceLt_irrefl] at h1
  cases h1

/-! ### Writes keep the iterator order -/

/-- An entry of a database after a write is the written one or an old one. -/
theorem mem_dbPut {key value : Bytes} {db : DB} {e : Bytes × Bytes}
    (h : e ∈ dbPut key value db) : e = (key, value) ∨ e ∈ db := by
  induction db with
  | nil => simpa [dbPut] using h
  | cons e1 rest ih =>
    obtain ⟨k1, v1⟩ := e1
    simp only [dbPut] at h
    split_ifs at h with a b
    · simpa using h
    · rcases List.mem_cons.mp h with h | h
      · exact Or.inl h
      · exact Or.inr (List.mem_cons_of_mem _ h)
    · rcases List.mem_cons.mp h with h | h
      · exact Or.inr (h ▸ List.mem_cons_self _ _)
      · rcases ih h with h | h
        · exact Or.inl h
        · exact Or.inr (List.mem_cons_of_mem _ h)

/-- A write keeps the iterator order. -/
theorem dbPut_sorted {key value : Bytes} {db : DB} (h : Sorted db) :
    Sorted (dbPut key value db) := by
  induction db with
  | nil => simp [dbPut, Sorted]
  | cons e1 rest ih =>
    obtain ⟨k1, v1⟩ := e1
    unfold Sorted at h ih ⊢
    rw [List.pairwise_cons] at h
    simp only [dbPut]
    split_ifs with a b
    · refine List.pairwise_cons.mpr ⟨?_, List.pairwise_cons.mpr h⟩
      intro e he
      rcases List.mem_cons.mp he with he | he
      · rw [he]
        exact a
      · exact sliceLt_trans a (h.1 e he)
    · subst b
      exact List.pairwise_cons.mpr h
    · refine List.pairwise_cons.mpr ⟨?_, ih h.2⟩
      intro e he
      rcases mem_dbPut he with he | he
      · rw [he]
        exact sliceLt_total (by simpa using a) (fun e => b e.symm)
      · exact h.1 e he

/-- A sequence of writes keeps the iterator order. -/
theorem foldl_dbPut_sorted (H : Helpers) (recs : List (HFSInodeKey × Bytes)) (db : DB)
    (h : Sorted db) :
    Sorted (recs.foldl (fun db r => dbPut (H.getKeySlice r.1) r.2 db) db) := by
  induction recs generalizing db with
  | nil => exact h
  | cons r rest ih => exact ih _ (dbPut_sorted h)

/-- A database built from records is in iterator order. -/
theorem storeOf_sorted (H : Helpers) (recs : List (HFSInodeKey × Bytes)) :
    Sorted (storeOf H recs) :=
  foldl_dbPut_sorted H recs [] List.Pairwise.nil

/-- Writing a fresh key adds one entry. -/
theorem dbPut_perm {key value : Bytes} {db : DB} (h : key ∉ db.map Prod.fst) :
    (dbPut key value db).Perm ((key, value) :: db) := by
  induction db with
  | nil => simp [dbPut]
  | cons e1 rest ih =>
    obtain ⟨k1, v1⟩ := e1
    simp only [List.map_cons, List.mem_cons, not_or] at h
    simp only [dbPut]
    split_ifs with a b
    · exact List.Perm.refl _
    · exact absurd b.symm h.1
    · exact ((ih h.2).cons (k1, v1)).trans (List.Perm.swap _ _ _)

/-- Writing records with fresh, pairwise distinct keys adds exactly these
records. -/
theorem foldl_dbPut_perm (H : Helpers) (recs : List (HFSInodeKey × Bytes)) (db : DB)
    (h : (recs.map (fun r => H.getKeySlice r.1) ++ db.map Prod.fst).Nodup) :
    (recs.foldl (fun db r => dbPut (H.getKeySlice r.1) r.2 db) db).Perm
      (recs.map (fun r => (H.getKeySlice r.1, r.2)) ++ db) := by
  induction recs generalizing db with
  | nil => simp
  | cons r rest ih =>
    simp only [List.map_cons, List.cons_append, List.nodup_cons, List.mem_append, not_or] at h
    simp only [List.foldl_cons, List.map_cons, List.cons_append]
    have hp := @dbPut_perm (H.getKeySlice r.1) r.2 db h.1.2
    have hn : (rest.map (fun r => H.getKeySlice r.1)
        ++ (dbPut (H.getKeySlice r.1) r.2 db).map Prod.fst).Nodup := by
      have hp2 := hp.map Prod.fst
      refine (List.Perm.nodup_iff (List.Perm.append_left _ hp2)).mpr ?_
      simp only [List.map_cons]
      refine (List.Perm.nodup_iff List.perm_middle).mpr ?_
      exact List.nodup_cons.mpr ⟨by simp [List.mem_append, h.1.1, h.1.2], h.2⟩
    refine (ih _ hn).trans ?_
    exact (List.Perm.append_left _ hp).trans List.perm_middle

/-- A database built from records with distinct encoded keys holds exactly
these records. -/
theorem storeOf_perm (H : Helpers) (recs : List (HFSInodeKey × Bytes))
    (h : (recs.map (fun r => H.getKeySlice r.1)).Nodup) :
    (storeOf H recs).Perm (recs.map (fun r => (H.getKeySlice r.1, r.2))) := by
  have := foldl_dbPut_perm H recs [] (by simpa using h)
  simpa [storeOf] using this

/-- Two databases in iterator order with the same entries are equal. -/
theorem sorted_perm_eq {db1 db2 : DB} (h1 : Sorted db1) (h2 : Sorted db2) (hp : db1.Perm db2) :
    db1 = db2 := by
  haveI : IsAntisymm (Bytes × Bytes) (fun e1 e2 => sliceLt e1.1 e2.1 = true) :=
    ⟨fun a b hab hba => by rw [sliceLt_asymm hab] at hba; cases hba⟩
  exact List.eq_of_perm_of_sorted hp h1 h2

/-- A point read finds every entry of a database in iterator order. -/
theorem dbGet_of_mem_sorted {db : DB} (h : Sorted db) {k v : Bytes} (hm : (k, v) ∈ db) :
    dbGet db k = some v := by
  induction db with
  | nil => cases hm
  | cons e1 rest ih =>
    obtain ⟨k1, v1⟩ := e1
    unfold Sorted at h ih
    rw [List.pairwise_cons] at h
    rcases List.mem_cons.mp hm with he | he
    · cases he
      simp [dbGet]
    · have hne : k1 ≠ k := sliceLt_ne (h.1 _ he)
      simp only [dbGet, hne, if_false]
      exact ih h.2 he

/-! ### The range scan over a database in iterator order -/

/-- Seeking in a database in iterator order keeps exactly the entries that are
not below the start key. -/
theorem dbSeek_sorted {db : DB} (h : Sorted db) (start : Bytes) :
    dbSeek start db = db.filter (fun e => !sliceLt e.1 start) := by
  induction db with
  | nil => rfl
  | cons e1 rest ih =>
    obtain ⟨k1, v1⟩ := e1
    unfold Sorted at h ih
    rw [List.pairwise_cons] at h
    simp only [dbSeek]
    by_cases a : sliceLt k1 start = true
    · simp only [a, if_true]
      rw [ih h.2, List.filter_cons_of_neg (by simp [a])]
    · have a2 : sliceLt k1 start = false := by simpa using a
      simp only [a2, Bool.false_eq_true, if_false]
      rw [List.filter_cons_of_pos (by simp [a2])]
      congr 1
      symm
      rw [List.filter_eq_self]
      intro e he
      cases hs : sliceLt e.1 start with
      | false => rfl
      | true =>
        have := sliceLt_trans (h.1 e he) hs
        rw [a2] at this
        cases this

/-- One round of the scan loop on a key below the end key. -/
theorem readdirLoop_cons (H : Helpers) (eng : Engine) (filler : Filler) (db : DB)
    (endKey k v : Bytes) (rest : DB) (buf : List DirEntry) (a : sliceLt k endKey = true) :
    readdirLoop H eng filler db endKey ((k, v) :: rest) buf
      = match loopEntry H eng db k with
        | none => readdirLoop H eng filler db endKey rest buf
        | some e =>
          if filler buf e < 0 then (-ENOMEM, buf ++ [e])
          else readdirLoop H eng filler db endKey rest (buf ++ [e]) := by
  simp only [readdirLoop, a, if_true, loopEntry]
  generalize (if eng.getOk k = true then (dbGet db k).getD [] else []) = vd
  generalize memoryOf vd eng.heap = mem
  generalize H.castMetaData (readBytes mem 0 H.HFS_INODE_VALUE_SIZE) = iv
  by_cases hz : iv.file_structure.st_ino = 0
  · simp only [hz, if_true]
  · simp only [hz, if_false]

/-- The scan loop over entries in iterator order, with a healthy iterator and a
filler that never fails: it returns 0 and hands over the entries of the keys
below the end key. -/
theorem readdirLoop_sorted (H : Helpers) (eng : Engine) (filler : Filler) (db : DB)
    (endKey : Bytes) (hiter : eng.iterOk = true) (hfill : ∀ buf e, 0 ≤ filler buf e)
    (it : DB) (h : Sorted it) (buf : List DirEntry) :
    readdirLoop H eng filler db endKey it buf
      = (0, buf ++ (it.filter (fun e => sliceLt e.1 endKey)).filterMap
          (fun e => loopEntry H eng db e.1)) := by
  induction it generalizing buf with
  | nil => simp [readdirLoop, hiter]
  | cons e1 rest ih =>
    obtain ⟨k1, v1⟩ := e1
    unfold Sorted at h ih
    rw [List.pairwise_cons] at h
    by_cases a : sliceLt k1 endKey = true
    · rw [List.filter_cons_of_pos (by simpa using a), readdirLoop_cons _ _ _ _ _ _ _ _ _ a]
      cases hl : loopEntry H eng db k1 with
      | none =>
        simp only [List.filterMap_cons, hl]
        exact ih h.2 buf
      | some e =>
        simp only [List.filterMap_cons, hl]
        rw [if_neg (not_lt.mpr (hfill _ _)), ih h.2]
        simp
    · have a2 : sliceLt k1 endKey = false := by simpa using a
      rw [List.filter_cons_of_neg (by simp [a2])]
      have hnil : rest.filter (fun e => sliceLt e.1 endKey) = [] := by
        rw [List.filter_eq_nil_iff]
        intro e he hs
        have := sliceLt_trans (h.1 e he) hs
        rw [a2] at this
        cases this
      simp [readdirLoop, a2, hiter, hnil]

/-! ### Order-preserving keys -/

/-- Key pairs are totally ordered. -/
theorem keyLt_trichotomy (a b : HFSInodeKey) : keyLt a b ∨ a = b ∨ keyLt b a := by
  obtain ⟨p1, h1⟩ := a
  obtain ⟨p2, h2⟩ := b
  simp only [keyLt, HFSInodeKey.mk.injEq]
  omega

/-- Under an order-preserving encoding, encoded keys compare as the pairs do.
-/
theorem sliceLt_iff_keyLt {H : Helpers} (hord : OrderPreserving H) {a b : HFSInodeKey}
    (ha : validKey a) (hb : validKey b) :
    sliceLt (H.getKeySlice a) (H.getKeySlice b) = true ↔ keyLt a b := by
  constructor
  · intro h
    rcases keyLt_trichotomy a b with h1 | h1 | h1
    · exact h1
    · subst h1
      rw [sliceLt_irrefl] at h
      cases h
    · have := hord b a hb ha h1
      rw [sliceLt_asymm h] at this
      cases this
  · exact hord a b ha hb

/-- An order-preserving encoding is injective on 64-bit keys. -/
theorem getKeySlice_injOn {H : Helpers} (hord : OrderPreserving H) {a b : HFSInodeKey}
    (ha : validKey a) (hb : validKey b) (h : H.getKeySlice a = H.getKeySlice b) : a = b := by
  rcases keyLt_trichotomy a b with h1 | h1 | h1
  · exact absurd h (sliceLt_ne (hord a b ha hb h1))
  · exact h1
  · exact absurd h.symm (sliceLt_ne (hord b a hb ha h1))

/-- A key lies in the scan range of `d` exactly when its parent id is `d`, as
long as `d + 1` does not wrap. -/
theorem inRange_iff {H : Helpers} (hord : OrderPreserving H) {k : HFSInodeKey} (hk : validKey k)
    {d : Nat} (hd : d + 1 < U64) :
    ((!sliceLt (H.getKeySlice k) (H.getKeySlice ⟨d, 0⟩)) &&
      sliceLt (H.getKeySlice k) (H.getKeySlice ⟨(d + 1) % U64, 0⟩)) = (k.inode_number == d) := by
  have hmod : (d + 1) % U64 = d + 1 := Nat.mod_eq_of_lt hd
  have hU : 0 < U64 := by unfold U64; positivity
  have v1 : validKey ⟨d, 0⟩ := ⟨by show d < U64; omega, hU⟩
  have v2 : validKey ⟨d + 1, 0⟩ := ⟨hd, hU⟩
  rw [hmod]
  have e1 := sliceLt_iff_keyLt hord hk v1
  have e2 := sliceLt_iff_keyLt hord hk v2
  simp only [keyLt, Nat.not_lt_zero, and_false, or_false] at e1 e2
  by_cases hkd : k.inode_number = d
  · have h1 : sliceLt (H.getKeySlice k) (H.getKeySlice ⟨d, 0⟩) = false := by
      cases hs : sliceLt (H.getKeySlice k) (H.getKeySlice ⟨d, 0⟩) with
      | false => rfl
      | true => have := e1.mp hs; omega
    have h2 : sliceLt (H.getKeySlice k) (H.getKeySlice ⟨d + 1, 0⟩) = true := e2.mpr (by omega)
    simp [h1, h2, hkd]
  · have hne : (k.inode_number == d) = false := by simpa using hkd
    rw [hne]
    by_cases hlt : k.inode_number < d
    · have h1 : sliceLt (H.getKeySlice k) (H.getKeySlice ⟨d, 0⟩) = true := e1.mpr hlt
      simp [h1]
    · have h2 : sliceLt (H.getKeySlice k) (H.getKeySlice ⟨d + 1, 0⟩) = false := by
        cases hs : sliceLt (H.getKeySlice k) (H.getKeySlice ⟨d + 1, 0⟩) with
        | false => rfl
        | true => have := e2.mp hs; omega
      simp [h2]

/-! ### What the loop makes of a well-formed record -/

/-- The C string behind the header of a well-formed value is its NUL-free name.
-/
theorem cstrAt_wellformed (v heap : Bytes) (n : Nat) (hnul : 0 ∉ v.drop n) (hlen : n ≤ v.length) :
    cstrAt (memoryOf v heap) n = v.drop n := by
  unfold cstrAt memoryOf
  rw [List.drop_append_of_le_length hlen]
  rw [List.takeWhile_append_of_pos]
  · simp
  · intro b hb
    have : b ≠ 0 := fun e => hnul (e ▸ hb)
    simpa using this

/-- The header of a long enough value is read from the value alone. -/
theorem readBytes_memoryOf (v heap : Bytes) (n : Nat) (hlen : n ≤ v.length) :
    readBytes (memoryOf v heap) 0 n = readBytes v 0 n := by
  unfold readBytes memoryOf
  simp only [List.drop_zero]
  rw [List.take_append_of_le_length hlen]

/-- The loop body on a well-formed record: skipped on the sentinel, otherwise
the stored name and attributes. -/
theorem loopEntry_wellformed (H : Helpers) (eng : Engine) (db : DB) (k v : Bytes)
    (hget : eng.getOk k = true) (hdb : dbGet db k = some v)
    (hlen : H.HFS_INODE_VALUE_SIZE ≤ v.length) (hnul : 0 ∉ storedName H v) :
    loopEntry H eng db k
      = if (storedMetaData H v).file_structure.st_ino = 0 then none else some (entryOf H v) := by
  unfold loopEntry entryOf storedMetaData
  simp only [hget, hdb, if_true, Option.getD_some]
  rw [readBytes_memoryOf _ _ _ hlen, cstrAt_wellformed _ _ _ hnul hlen]
  rfl

/-- The entries the scan yields for a list of well-formed records are those of
the listed children. -/
theorem children_eq (H : Helpers) (hord : OrderPreserving H) (eng : Engine) (db : DB)
    (d : Nat) (hd : d + 1 < U64) (hget : ∀ k, eng.getOk k = true)
    (l : List (HFSInodeKey × Bytes))
    (hl : ∀ r ∈ l, validKey r.1 ∧ dbGet db (H.getKeySlice r.1) = some r.2 ∧
      (r.1.inode_number = d → H.HFS_INODE_VALUE_SIZE ≤ r.2.length ∧ 0 ∉ storedName H r.2)) :
    ((l.map (fun r => (H.getKeySlice r.1, r.2))).filter
        (fun e => sliceLt e.1 (H.getKeySlice ⟨(d + 1) % U64, 0⟩) &&
          !sliceLt e.1 (H.getKeySlice ⟨d, 0⟩))).filterMap
        (fun e => loopEntry H eng db e.1)
      = (l.filter (isListedChild H d)).map (fun r => entryOf H r.2) := by
  induction l with
  | nil => rfl
  | cons r rest ih =>
    have hr := hl r (List.mem_cons_self _ _)
    have ih2 := ih (fun x hx => hl x (List.mem_cons_of_mem _ hx))
    have hin := inRange_iff hord hr.1 hd
    rw [Bool.and_comm] at hin
    simp only [List.map_cons]
    generalize hP : (fun e : Bytes × Bytes =>
      sliceLt e.1 (H.getKeySlice ⟨(d + 1) % U64, 0⟩) &&
        !sliceLt e.1 (H.getKeySlice ⟨d, 0⟩)) = P at ih2 ⊢
    have hPr : P (H.getKeySlice r.1, r.2) = (r.1.inode_number == d) := by
      rw [← hP]
      exact hin
    by_cases hp : r.1.inode_number = d
    · have hpb : (r.1.inode_number == d) = true := by simpa using hp
      rw [hpb] at hPr
      rw [List.filter_cons_of_pos hPr, List.filterMap_cons]
      rw [loopEntry_wellformed H eng db _ r.2 (hget _) hr.2.1 (hr.2.2 hp).1 (hr.2.2 hp).2]
      by_cases hz : (storedMetaData H r.2).file_structure.st_ino = 0
      · rw [if_pos hz]
        rw [List.filter_cons_of_neg (by simp [isListedChild, hz])]
        exact ih2
      · rw [if_neg hz]
        rw [List.filter_cons_of_pos (by simp [isListedChild, hz, hp])]
        simp only [List.map_cons]
        rw [ih2]
    · have hpb : (r.1.inode_number == d) = false := by simpa using hp
      rw [hpb] at hPr
      rw [List.filter_cons_of_neg (by simp [hPr])]
      rw [List.filter_cons_of_neg (by simp [isListedChild, hp])]
      exact ih2

/-- Distinct 64-bit keys have distinct encodings. -/
theorem encoded_keys_nodup (H : Helpers) (hord : OrderPreserving H)
    (recs : List (HFSInodeKey × Bytes)) (hkeys : ∀ r ∈ recs, validKey r.1)
    (hnodup : (recs.map Prod.fst).Nodup) :
    (recs.map (fun r => H.getKeySlice r.1)).Nodup := by
  have h : ((recs.map Prod.fst).map H.getKeySlice).Nodup := by
    refine List.Nodup.map_on ?_ hnodup
    intro a ha b hb hab
    obtain ⟨ra, hra, rfl⟩ := List.mem_map.mp ha
    obtain ⟨rb, hrb, rfl⟩ := List.mem_map.mp hb
    exact getKeySlice_injOn hord (hkeys ra hra) (hkeys rb hrb) hab
  simpa [List.map_map] using h

/-- The database does not depend on the order in which the records were stored.
-/
theorem storeOf_perm_invariant (H : Helpers) (hord : OrderPreserving H)
    (recs recs2 : List (HFSInodeKey × Bytes)) (hkeys : ∀ r ∈ recs, validKey r.1)
    (hnodup : (recs.map Prod.fst).Nodup) (hp : recs2.Perm recs) :
    storeOf H recs2 = storeOf H recs := by
  have hkeys2 : ∀ r ∈ recs2, validKey r.1 := fun r hr => hkeys r (hp.mem_iff.mp hr)
  have hnodup2 : (recs2.map Prod.fst).Nodup := (hp.map Prod.fst).nodup_iff.mpr hnodup
  have p1 := storeOf_perm H recs (encoded_keys_nodup H hord recs hkeys hnodup)
  have p2 := storeOf_perm H recs2 (encoded_keys_nodup H hord recs2 hkeys2 hnodup2)
  exact sorted_perm_eq (storeOf_sorted H recs2) (storeOf_sorted H recs)
    (p2.trans ((hp.map _).trans p1.symm))

/-- The listing depends on the state through the database only. -/
theorem hfs_readdir_db (H : Helpers) (eng : Engine) (filler : Filler) (path : Bytes)
    (s s2 : HFS_FileSystemState) (h : s2.metaDataDB = s.metaDataDB) :
    hfs_readdir H eng filler path s2 = hfs_readdir H eng filler path s := by
  simp only [hfs_readdir, h]

/-- Claim C1, as amended: for a directory inode number `d` with
`d + 1 < 2^64`, a key encoding that preserves the order of key pairs, and a
store that holds records under pairwise distinct 64-bit keys in which every
record with parent id `d` has a value of at least `HFS_INODE_VALUE_SIZE` bytes
and a NUL-free name, `hfs_readdir` (point reads and iterator healthy, filler
never negative) returns 0 and hands the filler, after `.` and `..`, exactly
one entry for each stored record with parent id `d` and `st_ino != 0`,
carrying its stored name and attributes, and no other entry; the listing is
the same whatever the order in which the records were inserted. -/
theorem readdir_lists_children (H : Helpers) (hord : OrderPreserving H) (eng : Engine)
    (filler : Filler) (path : Bytes) (s : HFS_FileSystemState)
    (recs : List (HFSInodeKey × Bytes)) (d : Nat)
    (hdb : s.metaDataDB = storeOf H recs)
    (hkeys : ∀ r ∈ recs, validKey r.1)
    (hnodup : (recs.map Prod.fst).Nodup)
    (hd : H.getInodeFromPath s.metaDataDB path (H.returnFilenameFromPath path) = d)
    (hdlt : d + 1 < U64)
    (hwf : ∀ r ∈ recs, r.1.inode_number = d →
      H.HFS_INODE_VALUE_SIZE ≤ r.2.length ∧ 0 ∉ storedName H r.2)
    (hget : ∀ k, eng.getOk k = true) (hiter : eng.iterOk = true)
    (hfill : ∀ buf e, 0 ≤ filler buf e) :
    ∃ children : List DirEntry,
      hfs_readdir H eng filler path s = (0, dotEntries ++ children) ∧
      children.Perm ((recs.filter (isListedChild H d)).map (fun r => entryOf H r.2)) ∧
      ∀ (recs2 : List (HFSInodeKey × Bytes)) (s2 : HFS_FileSystemState),
        recs2.Perm recs → s2.metaDataDB = storeOf H recs2 →
        hfs_readdir H eng filler path s2 = hfs_readdir H eng filler path s := by
  have hsorted : Sorted s.metaDataDB := hdb ▸ storeOf_sorted H recs
  have hencnd := encoded_keys_nodup H hord recs hkeys hnodup
  have hperm : s.metaDataDB.Perm (recs.map (fun r => (H.getKeySlice r.1, r.2))) :=
    hdb ▸ storeOf_perm H recs hencnd
  have hgetdb : ∀ r ∈ recs, dbGet s.metaDataDB (H.getKeySlice r.1) = some r.2 := by
    intro r hr
    refine dbGet_of_mem_sorted hsorted (hperm.mem_iff.mpr ?_)
    exact List.mem_map.mpr ⟨r, hr, rfl⟩
  refine ⟨((s.metaDataDB.filter (fun e => sliceLt e.1 (H.getKeySlice ⟨(d + 1) % U64, 0⟩) &&
      !sliceLt e.1 (H.getKeySlice ⟨d, 0⟩))).filterMap
      (fun e => loopEntry H eng s.metaDataDB e.1)), ?_, ?_, ?_⟩
  · simp only [hfs_readdir, hd]
    rw [if_neg (not_lt.mpr (hfill _ _)), if_neg (not_lt.mpr (hfill _ _))]
    rw [dbSeek_sorted hsorted]
    rw [readdirLoop_sorted H eng filler _ _ hiter hfill _
      (List.Pairwise.sublist (List.filter_sublist _) hsorted)]
    rw [List.filter_filter]
    rfl
  · refine ((hperm.filter _).filterMap _).trans ?_
    rw [children_eq H hord eng s.metaDataDB d hdlt hget recs
      (fun r hr => ⟨hkeys r hr, hgetdb r hr, hwf r hr⟩)]
  · intro recs2 s2 hp hdb2
    apply hfs_readdir_db
    rw [hdb2, hdb]
    exact storeOf_perm_invariant H hord recs recs2 hkeys hnodup hp

/-! ### The reference key encoding preserves order -/

/-- Big-endian encodings of fixed width compare as the numbers do. -/
theorem beBytes_lt (w a b : Nat) (h : a % 256 ^ w < b % 256 ^ w) :
    sliceLt (beBytes w a) (beBytes w b) = true := by
  induction w with
  | zero => simp [Nat.mod_one] at h
  | succ w ih =>
    rw [Nat.mod_pow_succ, Nat.mod_pow_succ] at h
    have hra : a % 256 ^ w < 256 ^ w := Nat.mod_lt _ (by positivity)
    have hrb : b % 256 ^ w < 256 ^ w := Nat.mod_lt _ (by positivity)
    simp only [beBytes, sliceLt]
    by_cases h1 : a / 256 ^ w % 256 < b / 256 ^ w % 256
    · simp [h1]
    · by_cases h2 : b / 256 ^ w % 256 < a / 256 ^ w % 256
      · exfalso
        have h3 : 256 ^ w * (b / 256 ^ w % 256 + 1) ≤ 256 ^ w * (a / 256 ^ w % 256) :=
          Nat.mul_le_mul_left _ h2
        rw [Nat.mul_succ] at h3
        omega
      · have h3 : a / 256 ^ w % 256 = b / 256 ^ w % 256 := by omega
        simp only [h1, h2, if_false]
        apply ih
        rw [h3] at h
        omega

/-- A strict order between prefixes of equal length decides the comparison. -/
theorem sliceLt_append_left {x x2 : Bytes} (y y2 : Bytes) (h : sliceLt x x2 = true)
    (hlen : x.length = x2.length) : sliceLt (x ++ y) (x2 ++ y2) = true := by
  induction x generalizing x2 with
  | nil =>
    cases x2 with
    | nil => simp [sliceLt] at h
    | cons b bs => simp at hlen
  | cons a as ih =>
    cases x2 with
    | nil => simp at hlen
    | cons b bs =>
      simp only [List.cons_append, sliceLt] at h ⊢
      by_cases h1 : a < b
      · simp [h1]
      · by_cases h2 : b < a
        · simp [h1, h2] at h
        · simp only [h1, h2, if_false] at h ⊢
          exact ih h (by simpa using hlen)

/-- A common prefix does not matter to the comparison. -/
theorem sliceLt_append_same (x y y2 : Bytes) : sliceLt (x ++ y) (x ++ y2) = sliceLt y y2 := by
  induction x with
  | nil => rfl
  | cons a as ih => simp [sliceLt, ih]

/-- Eight bytes hold a 64-bit value. -/
theorem pow_256_8 : 256 ^ 8 = U64 := by
  norm_num [U64]

/-- The big-endian reference key encoding preserves the order of key pairs. -/
theorem refHelpers_orderPreserving : OrderPreserving refHelpers := by
  intro a b ha hb hlt
  show sliceLt (refKeySlice a) (refKeySlice b) = true
  unfold refKeySlice
  obtain ⟨ha1, ha2⟩ := ha
  obtain ⟨hb1, hb2⟩ := hb
  rcases hlt with h | ⟨h1, h2⟩
  · refine sliceLt_append_left _ _ (beBytes_lt 8 _ _ ?_) (by simp [beBytes_length])
    rw [pow_256_8, Nat.mod_eq_of_lt ha1, Nat.mod_eq_of_lt hb1]
    exact h
  · rw [h1, sliceLt_append_same]
    apply beBytes_lt
    rw [pow_256_8, Nat.mod_eq_of_lt ha2, Nat.mod_eq_of_lt hb2]
    exact h2

/-- Claim C1, witness: the listing of the root of `demoTree`, whose store is
the one built from `demoRecs`. -/
theorem readdir_lists_children_witness :
    demoTree.metaDataDB = storeOf refHelpers demoRecs ∧
    hfs_readdir refHelpers okEngine okFiller (str "/") demoTree
      = (0, dotEntries ++
          [{ name := str "a", stbuf := some { zeroStat with st_ino := 2, st_mode := 16877 } },
           { name := str "bb", stbuf := some { zeroStat with st_ino := 3, st_mode := 420 } }]) ∧
    ∃ children : List DirEntry,
      hfs_readdir refHelpers okEngine okFiller (str "/") demoTree = (0, dotEntries ++ children) ∧
      children.Perm ((demoRecs.filter (isListedChild refHelpers 0)).map
        (fun r => entryOf refHelpers r.2)) ∧
      ∀ (recs2 : List (HFSInodeKey × Bytes)) (s2 : HFS_FileSystemState),
        recs2.Perm demoRecs → s2.metaDataDB = storeOf refHelpers recs2 →
        hfs_readdir refHelpers okEngine okFiller (str "/") s2
          = hfs_readdir refHelpers okEngine okFiller (str "/") demoTree :=
  ⟨by decide, by decide,
    readdir_lists_children refHelpers refHelpers_orderPreserving okEngine okFiller (str "/")
      demoTree demoRecs 0 (by decide) (by decide) (by decide) (by decide) (by decide)
      (by decide) (fun _ => rfl) rfl (fun _ _ => le_refl 0)⟩


/-- Claim C4: when the key of the path is already present in the store,
`hfs_create` and `hfs_mkdir` return `-EEXIST` and leave the whole process
state, store contents and inode counter included, as it was. -/
theorem create_mkdir_existing_key (H : Helpers) (eng : Engine) (path : Bytes) (mode : Nat)
    (s : HFS_FileSystemState)
    (h : keyExists H (entryKey H s.metaDataDB path) s.metaDataDB = true) :
    hfs_create H eng path mode s = (-EEXIST, s) ∧
    hfs_mkdir H eng path mode s = (-EEXIST, s) := by
  unfold entryKey at h
  constructor
  · simp [hfs_create, h]
  · simp [hfs_mkdir, h]

/-- Claim C4, witness: creating `/ab` a second time. -/
theorem create_mkdir_existing_key_witness :
    keyExists refHelpers
      (entryKey refHelpers (hfs_create refHelpers okEngine (str "/ab") 420 demoInit).2.metaDataDB
        (str "/ab"))
      (hfs_create refHelpers okEngine (str "/ab") 420 demoInit).2.metaDataDB = true ∧
    (hfs_create refHelpers okEngine (str "/ab") 420
        (hfs_create refHelpers okEngine (str "/ab") 420 demoInit).2
      = (-EEXIST, (hfs_create refHelpers okEngine (str "/ab") 420 demoInit).2) ∧
     hfs_mkdir refHelpers okEngine (str "/ab") 420
        (hfs_create refHelpers okEngine (str "/ab") 420 demoInit).2
      = (-EEXIST, (hfs_create refHelpers okEngine (str "/ab") 420 demoInit).2)) :=
  ⟨by decide, create_mkdir_existing_key refHelpers okEngine (str "/ab") 420 _ (by decide)⟩

/-- Claim C3, the code at a failing write: when the key is absent and the
engine refuses the `Put`, `hfs_create` returns 0 although the store is
unchanged, whereas `hfs_mkdir` returns `-EIO` in the same situation. -/
theorem create_returns_zero_on_put_failure (H : Helpers) (eng : Engine) (path : Bytes) (mode : Nat)
    (s : HFS_FileSystemState)
    (habsent : keyExists H (entryKey H s.metaDataDB path) s.metaDataDB = false)
    (hput : eng.putOk = false) :
    (hfs_create H eng path mode s).1 = 0 ∧
    (hfs_create H eng path mode s).2.metaDataDB = s.metaDataDB ∧
    (hfs_mkdir H eng path mode s).1 = - EIO := by
  unfold entryKey at habsent
  simp [hfs_create, hfs_mkdir, habsent, hput, dbPutStatus]

/-- Claim C3, witness: `hfs_create` of `/f` on an engine whose `Put` fails. -/
theorem create_returns_zero_on_put_failure_witness :
    keyExists refHelpers (entryKey refHelpers demoInit.metaDataDB (str "/f")) demoInit.metaDataDB = false ∧
    putFailEngine.putOk = false ∧
    (hfs_create refHelpers putFailEngine (str "/f") 420 demoInit).1 = 0 ∧
    (hfs_create refHelpers putFailEngine (str "/f") 420 demoInit).2.metaDataDB = demoInit.metaDataDB ∧
    (hfs_mkdir refHelpers putFailEngine (str "/f") 420 demoInit).1 = - EIO :=
  ⟨by decide, rfl, create_returns_zero_on_put_failure refHelpers putFailEngine (str "/f") 420 demoInit (by decide) rfl⟩

/-- No handler call changes the root-initialization flag. -/
theorem step_rootInitFlag (H : Helpers) (eng : Engine) (c : Call) (s : HFS_FileSystemState) :
    (step H eng c s).rootInitFlag = s.rootInitFlag := by
  cases c <;> simp only [step, hfs_getattr, hfs_create, hfs_mkdir, hfs_init, hfs_utimens,
      hfs_unlink, hfs_rmdir, incrementInodeNumber] <;> split_ifs <;> rfl

/-- No run changes the root-initialization flag. -/
theorem run_rootInitFlag (H : Helpers) (calls : List (Engine × Call)) (s : HFS_FileSystemState) :
    (run H calls s).rootInitFlag = s.rootInitFlag := by
  induction calls generalizing s with
  | nil => rfl
  | cons ec rest ih =>
    obtain ⟨eng, c⟩ := ec
    simp only [run]
    rw [ih, step_rootInitFlag]

/-- The handler `hfs_init` does not change the root-initialization flag. -/
theorem hfs_init_flag (H : Helpers) (eng : Engine) (r : Stat) (s : HFS_FileSystemState) :
    (hfs_init H eng r s).rootInitFlag = s.rootInitFlag := step_rootInitFlag H eng (.init r) s

/-- Claim C6, the code at a second `hfs_init`: no handler sets the
root-initialization flag, so after a first `hfs_init` on an unset flag and any
run of handler calls, a second `hfs_init` advances the inode counter again and
issues the `Put` of the root record again. -/
theorem init_twice_advances_counter (H : Helpers) (e1 e2 : Engine) (r1 r2 : Stat)
    (calls : List (Engine × Call)) (s : HFS_FileSystemState)
    (h : s.rootInitFlag = false) :
    (hfs_init H e2 r2 (run H calls (hfs_init H e1 r1 s))).inodeNumber
      = ((run H calls (hfs_init H e1 r1 s)).inodeNumber + 1) % U64 ∧
    (hfs_init H e2 r2 (run H calls (hfs_init H e1 r1 s))).metaDataDB
      = (dbPutStatus e2.putOk (run H calls (hfs_init H e1 r1 s)).metaDataDB
          (H.getKeySlice (rootKey H))
          (H.initInodeValue { r2 with st_ino := H.ROOT_INODE_ID } H.ROOT_INODE
            (S_IFDIR ||| 493))).1 := by
  have hf : (run H calls (hfs_init H e1 r1 s)).rootInitFlag = false := by
    rw [run_rootInitFlag, hfs_init_flag, h]
  generalize run H calls (hfs_init H e1 r1 s) = s2 at hf ⊢
  constructor
  · simp [hfs_init, getRootInitFlag, hf, incrementInodeNumber]
  · simp [hfs_init, getRootInitFlag, hf, incrementInodeNumber, rootKey]

/-- Claim C6, witness: `hfs_init`, `mkdir /a`, `hfs_init`: the counter goes
from 3 to 4 and the store changes (the root record is overwritten). -/
theorem init_twice_advances_counter_witness :
    (freshState 1).rootInitFlag = false ∧
    (hfs_init refHelpers okEngine demoRootStat
        (run refHelpers [(okEngine, Call.mkdir (str "/a") 493)]
          (hfs_init refHelpers okEngine demoRootStat (freshState 1)))).inodeNumber = 4 ∧
    (run refHelpers [(okEngine, Call.mkdir (str "/a") 493)]
          (hfs_init refHelpers okEngine demoRootStat (freshState 1))).inodeNumber = 3 ∧
    (hfs_init refHelpers okEngine demoRootStat
        (run refHelpers [(okEngine, Call.mkdir (str "/a") 493)]
          (hfs_init refHelpers okEngine demoRootStat (freshState 1)))).metaDataDB
      ≠ (run refHelpers [(okEngine, Call.mkdir (str "/a") 493)]
          (hfs_init refHelpers okEngine demoRootStat (freshState 1))).metaDataDB := by
  have h := init_twice_advances_counter refHelpers okEngine okEngine demoRootStat demoRootStat
    [(okEngine, Call.mkdir (str "/a") 493)] (freshState 1) rfl
  refine ⟨rfl, ?_, by decide, by decide⟩
  rw [h.1]
  decide

/-- Claim C2, the code at `/ab`, `/ac` and `/x/ab`: whatever the hash function,
the key `hfs_getattr` looks up carries the hash of the first `strlen(name)`
bytes of the path (`/a`, `/a`, `/x`), not the hash of the name (`ab`, `ac`,
`ab`). -/
theorem getattr_hashes_leading_path_bytes (murmur : Bytes → Nat → Nat) (db : DB) :
    (getattrKey { refHelpers with murmur64 := murmur } db (str "/ab")).inode_number_hashed
      = murmur (str "/a") 123 ∧
    (getattrKey { refHelpers with murmur64 := murmur } db (str "/ac")).inode_number_hashed
      = murmur (str "/a") 123 ∧
    (getattrKey { refHelpers with murmur64 := murmur } db (str "/x/ab")).inode_number_hashed
      = murmur (str "/x") 123 ∧
    refFilename (str "/ab") = str "ab" ∧ refFilename (str "/ac") = str "ac" ∧
    refFilename (str "/x/ab") = str "ab" := by
  refine ⟨rfl, rfl, rfl, by decide, by decide, by decide⟩

/-- Claim C9, the code at `mkdir /a` followed by `mkdir /a/b`: the record of
`/a` carries the name `a` before the second call and the name `/a` after it,
because the parent update re-encodes the record with the parent's path. -/
theorem mkdir_rewrites_parent_name :
    (dbGet (hfs_mkdir refHelpers okEngine (str "/a") 493 demoInit).2.metaDataDB
        (refKeySlice demoDirKey)).map (storedName refHelpers) = some (str "a") ∧
    refHelpers.getKeyfromPath (hfs_mkdir refHelpers okEngine (str "/a") 493 demoInit).2.metaDataDB
        (str "/a") = demoDirKey ∧
    (hfs_mkdir refHelpers okEngine (str "/a/b") 493
        (hfs_mkdir refHelpers okEngine (str "/a") 493 demoInit).2).1 = 0 ∧
    (dbGet (hfs_mkdir refHelpers okEngine (str "/a/b") 493
        (hfs_mkdir refHelpers okEngine (str "/a") 493 demoInit).2).2.metaDataDB
        (refKeySlice demoDirKey)).map (storedName refHelpers) = some (str "/a") := by
  decide

/-- Claim C10, the code at `mkdir /d` followed by `rmdir /d`: both calls
succeed and the link count of the root goes from 2 to 3 to 4, because
`hfs_rmdir` increments it as well. -/
theorem mkdir_rmdir_raises_nlink_twice :
    (refGetMetaData demoInit.metaDataDB (rootKey refHelpers)).file_structure.st_nlink = 2 ∧
    keyExists refHelpers (entryKey refHelpers demoInit.metaDataDB (str "/d")) demoInit.metaDataDB = false ∧
    (hfs_mkdir refHelpers okEngine (str "/d") 493 demoInit).1 = 0 ∧
    (refGetMetaData (hfs_mkdir refHelpers okEngine (str "/d") 493 demoInit).2.metaDataDB
        (rootKey refHelpers)).file_structure.st_nlink = 3 ∧
    (hfs_rmdir refHelpers okEngine (str "/d")
        (hfs_mkdir refHelpers okEngine (str "/d") 493 demoInit).2).1 = 0 ∧
    (refGetMetaData (hfs_rmdir refHelpers okEngine (str "/d")
        (hfs_mkdir refHelpers okEngine (str "/d") 493 demoInit).2).2.metaDataDB
        (rootKey refHelpers)).file_structure.st_nlink = 4 := by
  decide

/-- Claim C8, the code at a child of the root whose stored value is three
bytes long: `hfs_readdir` hands the filler an entry for it, with name and
attributes taken from the bytes behind the value; when the point read of that
child fails, the entry is made entirely of the bytes behind the empty read
buffer. -/
theorem readdir_emits_short_child :
    dbGet demoCorrupt.metaDataDB (refKeySlice demoShortKey) = some [1, 2, 3] ∧
    (hfs_readdir refHelpers okEngine okFiller (str "/") demoCorrupt).2.map DirEntry.name
      = [str ".", str "..", str "a", []] ∧
    (hfs_readdir refHelpers demoReadFailEngine okFiller (str "/") demoCorrupt).2.map DirEntry.name
      = [str ".", str "..", str "a", str "hi"] ∧
    ((hfs_readdir refHelpers demoReadFailEngine okFiller (str "/") demoCorrupt).2.map
        (fun e => e.stbuf.map Stat.st_ino)) = [none, none, some 2, some 9] := by
  decide

/-- Claim C5, counterexample: after a successful `hfs_init` the root entry is
present, `hfs_unlink` on the root path returns 0, and the root entry's key is
absent afterwards. -/
theorem unlink_deletes_root :
    keyExists refHelpers (rootKey refHelpers) demoInit.metaDataDB = true ∧
    (hfs_unlink refHelpers okEngine (str "/") demoInit).1 = 0 ∧
    keyExists refHelpers (rootKey refHelpers)
      (run refHelpers [(okEngine, Call.unlink (str "/"))] demoInit).metaDataDB = false := by
  decide

/-- Claim C1, counterexample: in `demoWrap` the directory `/d` has inode number
`2^64 - 1` and the store holds a record with that parent id and inode number
5, yet `hfs_readdir` on `/d` emits `.` and `..` only: the end key
`dirInode + 1` wraps to 0.  And on the root of `demoTree`, whose children are
`a` and `bb`, a filler that reports an error on the third entry makes
`hfs_readdir` return `-ENOMEM` before `bb` is reached. -/
theorem readdir_misses_children :
    refHelpers.getInodeFromPath demoWrap.metaDataDB (str "/d") (str "d") = 2 ^ 64 - 1 ∧
    demoLastKey.inode_number = 2 ^ 64 - 1 ∧
    storedIno refHelpers demoWrap.metaDataDB demoLastKey = some 5 ∧
    hfs_readdir refHelpers okEngine okFiller (str "/d") demoWrap = (0, dotEntries) ∧
    (hfs_readdir refHelpers okEngine okFiller (str "/") demoTree).2.map DirEntry.name
      = [str ".", str "..", str "a", str "bb"] ∧
    (hfs_readdir refHelpers okEngine fullFiller (str "/") demoTree).1 = -ENOMEM ∧
    (hfs_readdir refHelpers okEngine fullFiller (str "/") demoTree).2.map DirEntry.name
      = [str ".", str "..", str "a"] := by
  decide

end HFS
